import Mathlib

set_option maxHeartbeats 1000000

/-!
Verification of the rtcheck static deadlock detector (src/rtcheck/main.go,
src/rtcheck/live.go) against its natural-language specification.

Shallow embedding conventions:
* Go `map` values become association lists (`List (κ × ν)`); a Go map lookup
  that returns the zero value for a missing key is translated by a lookup
  function returning that zero value.
* The `big.Int` bitsets of `LockSet` become `Finset Nat` (only the bitset
  operations `Bit`, `SetBit`, `Or`, `AndNot`, `Cmp`, `Text` are used by the
  source, and `Text 16` is injective on normalized big.Ints, so a `Finset`
  carries exactly the same information).
* Go pointers become `Nat` addresses into an explicit store, or `Option Nat`
  where the nil pointer is meaningful.
* The shared mutable `StringSpace` is threaded explicitly through the
  operations that may intern new labels.
-/

/-- StringSpace (main.go:773-794): interns strings into small integers.
`m` is the lookup map (association list standing for the Go map) and `s`
the id-indexed slice of strings. -/
structure StringSpace where
  m : List (String × Nat)
  s : List String
deriving DecidableEq

/-- Go map lookup on the StringSpace map: first matching key, if any. -/
def lookupStr : List (String × Nat) → String → Option Nat
  | [], _ => none
  | (k, v) :: rest, x => if k = x then some v else lookupStr rest x

/-- StringSpace.Intern (main.go:786-794): returns the existing id, or assigns
the next integer (the length of `s`) and records it in both `s` and `m`. -/
def StringSpace.Intern (sp : StringSpace) (str : String) : Nat × StringSpace :=
  match lookupStr sp.m str with
  | some id => (id, sp)
  | none => (sp.s.length, ⟨sp.m ++ [(str, sp.s.length)], sp.s ++ [str]⟩)

/-- A `*StackFrame` value as stored in a lockset: `none` is the nil pointer
(the empty stack), `some a` a pointer with address `a`. LockSet.Equal
(main.go:851) compares these stack pointers by pointer identity, which this
equality models. -/
abbrev StackPtr := Option Nat

/-- Go map lookup on `stackMap map[int]*StackFrame` (nil for a missing key,
which is indistinguishable from a stored nil pointer, exactly as in Go). -/
def findStack : List (Nat × StackPtr) → Nat → StackPtr
  | [], _ => none
  | (k, v) :: rest, id => if k = id then v else findStack rest id

/-- Whether `id` is a key of the stackMap map (Go: `_, ok := stackMap[id]`). -/
def hasStackKey : List (Nat × StackPtr) → Nat → Bool
  | [], _ => false
  | (k, _) :: rest, id => k = id || hasStackKey rest id

/-- Go map assignment `stackMap[id] = v`: replace the entry if the key is
present, otherwise append it. -/
def setStack : List (Nat × StackPtr) → Nat → StackPtr → List (Nat × StackPtr)
  | [], id, v => [(id, v)]
  | (k, w) :: rest, id, v =>
    if k = id then (id, v) :: rest else (k, w) :: setStack rest id v

/-- Go `delete(stackMap, id)`. -/
def delStack : List (Nat × StackPtr) → Nat → List (Nat × StackPtr)
  | [], _ => []
  | (k, w) :: rest, id => if k = id then delStack rest id else (k, w) :: delStack rest id

/-- LockSet (main.go:796-801): a set of locks and where they were acquired.
`spId` models the `sp *StringSpace` pointer (Equal compares it by pointer
identity); `bits` the `big.Int` bitset; `stackMap` the Go map from lock-class
id to acquisition stack. -/
structure LockSet where
  spId : Nat
  bits : Finset Nat
  stackMap : List (Nat × StackPtr)
deriving DecidableEq

/-- NewLockSet (main.go:805-807): empty bits, nil stackMap map. -/
def NewLockSet (spId : Nat) : LockSet := ⟨spId, ∅, []⟩

/-- LockSet.HashKey (main.go:837-839): `bits.Text(16)`, injective in the
bitset, so modelled by the bitset itself. -/
def LockSet.HashKey (set : LockSet) : Finset Nat := set.bits

/-- LockSet.Equal (main.go:843-856): same StringSpace pointer, same bits,
and for every key of the receiver's stackMap map the other lockset's lookup
yields the identical stack pointer. -/
def LockSet.Equal (set set2 : LockSet) : Bool :=
  set.spId = set2.spId && set.bits = set2.bits &&
    set.stackMap.all (fun kv => findStack set2.stackMap kv.1 = kv.2)

/-- LockSet.Plus (main.go:861-878): extends `set` with all labels of the
points-to set `s` (a list of label strings), acquired at `stack`. Labels are
interned into the shared StringSpace, which is threaded explicitly; ids whose
bit is already set are skipped. -/
def LockSet.Plus (set : LockSet) (sp : StringSpace) (s : List String)
    (stack : StackPtr) : StringSpace × LockSet :=
  match s with
  | [] => (sp, set)
  | label :: rest =>
    let (id, sp1) := sp.Intern label
    if id ∈ set.bits then set.Plus sp1 rest stack
    else
      LockSet.Plus ⟨set.spId, insert id set.bits, setStack set.stackMap id stack⟩ sp1 rest stack

/-- LockSet.PlusLabel (main.go:881-890): single-label variant of Plus. -/
def LockSet.PlusLabel (set : LockSet) (sp : StringSpace) (label : String)
    (stack : StackPtr) : StringSpace × LockSet :=
  let (id, sp1) := sp.Intern label
  if id ∈ set.bits then (sp1, set)
  else (sp1, ⟨set.spId, insert id set.bits, setStack set.stackMap id stack⟩)

/-- LockSet.Minus (main.go:914-928): removes all labels of `s`; clears both
the bit and the stackMap entry of each id whose bit is set. -/
def LockSet.Minus (set : LockSet) (sp : StringSpace) (s : List String) :
    StringSpace × LockSet :=
  match s with
  | [] => (sp, set)
  | label :: rest =>
    let (id, sp1) := sp.Intern label
    if id ∈ set.bits then
      LockSet.Minus ⟨set.spId, set.bits.erase id, delStack set.stackMap id⟩ sp1 rest
    else set.Minus sp1 rest

/-- LockSet.MinusLabel (main.go:931-940): single-label variant of Minus. -/
def LockSet.MinusLabel (set : LockSet) (sp : StringSpace) (label : String) :
    StringSpace × LockSet :=
  let (id, sp1) := sp.Intern label
  if id ∈ set.bits then (sp1, ⟨set.spId, set.bits.erase id, delStack set.stackMap id⟩)
  else (sp1, set)

/-- The stackMap-merging loop of LockSet.Union (main.go:904-908): for every
entry of `o.stackMap` (in map iteration order, here list order), if the
receiver's lookup yields the nil pointer, store the other side's pointer. -/
def unionStacks (acc : List (Nat × StackPtr)) : List (Nat × StackPtr) → List (Nat × StackPtr)
  | [] => acc
  | (k, v) :: rest =>
    if findStack acc k = none then unionStacks (setStack acc k v) rest
    else unionStacks acc rest

/-- LockSet.Union (main.go:894-910): if `o` adds no new bit
(`AndNot(o.bits, set.bits)` is zero) return the receiver unchanged;
otherwise or the bitsets and merge the stackMap, the receiver winning wherever
its lookup is non-nil. -/
def LockSet.Union (set o : LockSet) : LockSet :=
  if o.bits \ set.bits = ∅ then set
  else ⟨set.spId, set.bits ∪ o.bits, unionStacks set.stackMap o.stackMap⟩

/-- The key-set/bitset integrity invariant of a LockSet (spec §3:
`id ∈ bits ⇔ id ∈ stackMap`). -/
def LockSet.WF (set : LockSet) : Prop :=
  ∀ id : Nat, id ∈ set.bits ↔ hasStackKey set.stackMap id = true

theorem hasStackKey_iff (l : List (Nat × StackPtr)) (id : Nat) :
    hasStackKey l id = true ↔ ∃ kv ∈ l, kv.1 = id := by
  induction l with
  | nil => simp [hasStackKey]
  | cons a rest ih =>
    simp only [hasStackKey, Bool.or_eq_true, decide_eq_true_eq, ih, List.mem_cons]
    constructor
    · rintro (h | ⟨kv, hkv, hid⟩)
      · exact ⟨a, Or.inl rfl, h⟩
      · exact ⟨kv, Or.inr hkv, hid⟩
    · rintro ⟨kv, hkv | hkv, hid⟩
      · left; rw [← hkv]; exact hid
      · right; exact ⟨kv, hkv, hid⟩

instance (set : LockSet) : Decidable set.WF := by
  have h : set.WF ↔
      ((∀ id ∈ set.bits, hasStackKey set.stackMap id = true) ∧
        (∀ kv ∈ set.stackMap, kv.1 ∈ set.bits)) := by
    constructor
    · intro h
      exact ⟨fun id hid => (h id).1 hid,
        fun kv hkv => (h kv.1).2 ((hasStackKey_iff _ _).2 ⟨kv, hkv, rfl⟩)⟩
    · rintro ⟨h1, h2⟩ id
      refine ⟨h1 id, fun hk => ?_⟩
      obtain ⟨kv, hkv, hid⟩ := (hasStackKey_iff _ _).1 hk
      rw [← hid]; exact h2 kv hkv
  exact decidable_of_iff _ h.symm

/-- Keys of the Go stackMap map are unique (always true of a real Go map;
needed because the model uses association lists). -/
def nodupKeys (l : List (Nat × StackPtr)) : Bool :=
  match l with
  | [] => true
  | (k, _) :: rest => !hasStackKey rest k && nodupKeys rest


theorem findStack_setStack (l : List (Nat × StackPtr)) (id : Nat) (v : StackPtr) (x : Nat) :
    findStack (setStack l id v) x = if id = x then v else findStack l x := by
  induction l with
  | nil => simp [setStack, findStack]
  | cons a rest ih =>
    obtain ⟨k, w⟩ := a
    by_cases h1 : k = id <;> by_cases h2 : k = x <;> by_cases h3 : id = x <;>
      simp_all [setStack, findStack]

theorem hasStackKey_setStack (l : List (Nat × StackPtr)) (id : Nat) (v : StackPtr) (x : Nat) :
    hasStackKey (setStack l id v) x = (decide (id = x) || hasStackKey l x) := by
  induction l with
  | nil => simp [setStack, hasStackKey]
  | cons a rest ih =>
    obtain ⟨k, w⟩ := a
    by_cases h1 : k = id <;> by_cases h2 : k = x <;> by_cases h3 : id = x <;>
      simp_all [setStack, hasStackKey]

theorem findStack_delStack (l : List (Nat × StackPtr)) (id : Nat) (x : Nat) :
    findStack (delStack l id) x = if id = x then none else findStack l x := by
  induction l with
  | nil => simp [delStack, findStack]
  | cons a rest ih =>
    obtain ⟨k, w⟩ := a
    by_cases h1 : k = id <;> by_cases h2 : k = x <;> by_cases h3 : id = x <;>
      simp_all [delStack, findStack]

theorem hasStackKey_delStack (l : List (Nat × StackPtr)) (id : Nat) (x : Nat) :
    hasStackKey (delStack l id) x = (!decide (id = x) && hasStackKey l x) := by
  induction l with
  | nil => simp [delStack, hasStackKey]
  | cons a rest ih =>
    obtain ⟨k, w⟩ := a
    by_cases h1 : k = id <;> by_cases h2 : k = x <;> by_cases h3 : id = x <;>
      simp_all [delStack, hasStackKey]

theorem hasStackKey_setStack_iff (l : List (Nat × StackPtr)) (id : Nat) (v : StackPtr)
    (x : Nat) :
    hasStackKey (setStack l id v) x = true ↔ (id = x ∨ hasStackKey l x = true) := by
  simp [hasStackKey_setStack]

theorem hasStackKey_delStack_iff (l : List (Nat × StackPtr)) (id : Nat) (x : Nat) :
    hasStackKey (delStack l id) x = true ↔ (¬id = x ∧ hasStackKey l x = true) := by
  simp [hasStackKey_delStack]

theorem hasStackKey_of_findStack_some (l : List (Nat × StackPtr)) (k : Nat)
    (h : findStack l k ≠ none) : hasStackKey l k = true := by
  induction l with
  | nil => simp [findStack] at h
  | cons a rest ih =>
    obtain ⟨k1, w⟩ := a
    by_cases hk : k1 = k
    · simp [hasStackKey, hk]
    · simp only [findStack, if_neg hk] at h
      simp [hasStackKey, hk, ih h]

theorem hasStackKey_unionStacks (acc l : List (Nat × StackPtr)) (x : Nat) :
    hasStackKey (unionStacks acc l) x = (hasStackKey acc x || hasStackKey l x) := by
  induction l generalizing acc with
  | nil => simp [unionStacks, hasStackKey]
  | cons a rest ih =>
    obtain ⟨k, v⟩ := a
    by_cases hf : findStack acc k = none
    · simp only [unionStacks, if_pos hf, ih, hasStackKey_setStack, hasStackKey]
      by_cases hx : k = x <;> simp [hx]
    · simp only [unionStacks, if_neg hf, ih, hasStackKey]
      by_cases hx : k = x
      · subst hx
        simp [hasStackKey_of_findStack_some acc k hf]
      · simp [hx]

theorem LockSet.Plus_wf (set : LockSet) (sp : StringSpace) (s : List String)
    (stack : StackPtr) (h : set.WF) : (set.Plus sp s stack).2.WF := by
  induction s generalizing set sp with
  | nil => simpa [LockSet.Plus] using h
  | cons label rest ih =>
    simp only [LockSet.Plus]
    by_cases hb : (sp.Intern label).1 ∈ set.bits
    · simpa [hb] using ih set (sp.Intern label).2 h
    · simp only [if_neg hb]
      refine ih _ _ ?_
      intro x
      rw [Finset.mem_insert, hasStackKey_setStack_iff, h x, eq_comm]

theorem LockSet.Minus_wf (set : LockSet) (sp : StringSpace) (s : List String)
    (h : set.WF) : (set.Minus sp s).2.WF := by
  induction s generalizing set sp with
  | nil => simpa [LockSet.Minus] using h
  | cons label rest ih =>
    simp only [LockSet.Minus]
    by_cases hb : (sp.Intern label).1 ∈ set.bits
    · simp only [if_pos hb]
      refine ih _ _ ?_
      intro x
      rw [Finset.mem_erase, hasStackKey_delStack_iff, h x, ne_comm]
    · simpa [hb] using ih set (sp.Intern label).2 h

/-- C6: every LockSet reachable through NewLockSet, Plus, PlusLabel, Minus,
MinusLabel and Union satisfies the integrity invariant: a lock-class id has
its bit set in `bits` iff it is a key of the stacks map; each operation
preserves the invariant. -/
theorem lockSet_bits_stacks_invariant :
    (∀ spId : Nat, (NewLockSet spId).WF) ∧
    (∀ (set : LockSet) (sp : StringSpace) (s : List String) (stack : StackPtr),
      set.WF → (set.Plus sp s stack).2.WF) ∧
    (∀ (set : LockSet) (sp : StringSpace) (label : String) (stack : StackPtr),
      set.WF → (set.PlusLabel sp label stack).2.WF) ∧
    (∀ (set : LockSet) (sp : StringSpace) (s : List String),
      set.WF → (set.Minus sp s).2.WF) ∧
    (∀ (set : LockSet) (sp : StringSpace) (label : String),
      set.WF → (set.MinusLabel sp label).2.WF) ∧
    (∀ (set o : LockSet), set.WF → o.WF → (set.Union o).WF) := by
  refine ⟨?_, LockSet.Plus_wf, ?_, LockSet.Minus_wf, ?_, ?_⟩
  · intro spId id
    simp [NewLockSet, hasStackKey]
  · intro set sp label stack h
    simp only [LockSet.PlusLabel]
    by_cases hb : (sp.Intern label).1 ∈ set.bits
    · simpa [hb] using h
    · simp only [if_neg hb]
      intro x
      rw [Finset.mem_insert, hasStackKey_setStack_iff, h x, eq_comm]
  · intro set sp label h
    simp only [LockSet.MinusLabel]
    by_cases hb : (sp.Intern label).1 ∈ set.bits
    · simp only [if_pos hb]
      intro x
      rw [Finset.mem_erase, hasStackKey_delStack_iff, h x, ne_comm]
    · simpa [hb] using h
  · intro set o hs ho
    unfold LockSet.Union
    by_cases he : o.bits \ set.bits = ∅
    · simpa [he] using hs
    · simp only [if_neg he]
      intro x
      simp only [Finset.mem_union, hasStackKey_unionStacks, Bool.or_eq_true]
      rw [hs x, ho x]

/-- Witness for C6: the invariant theorem applied at concrete inputs, with
every hypothesis discharged by evaluation. -/
theorem lockSet_bits_stacks_invariant_witness :
    (NewLockSet 0).WF ∧
    ((NewLockSet 0).PlusLabel ⟨[], []⟩ "runtime.sched.lock" (some 3)).2.WF ∧
    (((NewLockSet 0).PlusLabel ⟨[], []⟩ "runtime.sched.lock" (some 3)).2.Union
      (NewLockSet 0)).WF :=
  ⟨lockSet_bits_stacks_invariant.1 0,
   lockSet_bits_stacks_invariant.2.2.1 (NewLockSet 0) ⟨[], []⟩ "runtime.sched.lock" (some 3)
     (by decide),
   lockSet_bits_stacks_invariant.2.2.2.2.2
     ((NewLockSet 0).PlusLabel ⟨[], []⟩ "runtime.sched.lock" (some 3)).2 (NewLockSet 0)
     (by decide) (by decide)⟩

theorem findStack_eq_none_of_not_hasKey (l : List (Nat × StackPtr)) (x : Nat)
    (h : hasStackKey l x = false) : findStack l x = none := by
  by_cases hf : findStack l x = none
  · exact hf
  · exact absurd (hasStackKey_of_findStack_some l x hf) (by simp [h])

theorem findStack_unionStacks (acc l : List (Nat × StackPtr)) (x : Nat)
    (hn : nodupKeys l = true) :
    findStack (unionStacks acc l) x =
      if findStack acc x = none ∧ hasStackKey l x = true then findStack l x
      else findStack acc x := by
  induction l generalizing acc with
  | nil => simp [unionStacks, hasStackKey]
  | cons a rest ih =>
    obtain ⟨k, v⟩ := a
    simp only [nodupKeys, Bool.and_eq_true, Bool.not_eq_true'] at hn
    obtain ⟨hk, hrest⟩ := hn
    by_cases hf : findStack acc k = none
    · rw [unionStacks, if_pos hf, ih _ hrest]
      by_cases hx : k = x
      · subst hx
        rw [findStack_setStack]
        simp only [if_pos rfl, hk, findStack, hasStackKey]
        by_cases hv : v = none <;> simp [hv, hf]
      · rw [findStack_setStack, if_neg hx]
        simp [findStack, hasStackKey, hx]
    · rw [unionStacks, if_neg hf, ih _ hrest]
      by_cases hx : k = x
      · subst hx
        simp [findStack, hasStackKey, hf]
      · simp [findStack, hasStackKey, hx]

/-- C3 counterexample: the claim "where both contain an id, the receiver's
stack wins" fails when the receiver's recorded stack for the common id is the
nil pointer (the empty stack, a legitimate `*StackFrame` value): Union's
`out.stacks[k] == nil` test (main.go:905) cannot distinguish that entry from
an absent one and overwrites it with `o`'s stack. -/
theorem union_receiver_stack_counterexample :
    ((⟨0, {0}, [(0, none)]⟩ : LockSet).WF) ∧
    ((⟨0, {0, 1}, [(0, some 7), (1, some 8)]⟩ : LockSet).WF) ∧
    (0 ∈ (⟨0, {0}, [(0, none)]⟩ : LockSet).bits ∧
      0 ∈ (⟨0, {0, 1}, [(0, some 7), (1, some 8)]⟩ : LockSet).bits) ∧
    findStack ((⟨0, {0}, [(0, none)]⟩ : LockSet).Union
      ⟨0, {0, 1}, [(0, some 7), (1, some 8)]⟩).stackMap 0 = some 7 ∧
    findStack (⟨0, {0}, [(0, none)]⟩ : LockSet).stackMap 0 = none := by
  decide

/-- C3 (amended): for LockSets over the same StringSpace satisfying the
bits/stacks integrity invariant: if `o` contributes no new bit, Union returns
the receiver unchanged (so every common id keeps the receiver's stack);
otherwise, for an id present in both, the receiver's stack wins unless the
receiver's recorded stack is the nil (empty) stack, in which case `o`'s stack
is taken; ids present only in `o` are added with `o`'s stack. -/
theorem union_stack_preference_amended (a b : LockSet) (ha : a.WF) (hb : b.WF)
    (hn : nodupKeys b.stackMap = true) :
    (b.bits \ a.bits = ∅ → a.Union b = a) ∧
    (∀ id, id ∈ a.bits → id ∈ b.bits → ¬b.bits \ a.bits = ∅ →
      findStack (a.Union b).stackMap id =
        if findStack a.stackMap id = none then findStack b.stackMap id
        else findStack a.stackMap id) ∧
    (∀ id, id ∉ a.bits → id ∈ b.bits →
      id ∈ (a.Union b).bits ∧
      findStack (a.Union b).stackMap id = findStack b.stackMap id) := by
  refine ⟨?_, ?_, ?_⟩
  · intro he
    simp [LockSet.Union, he]
  · intro id hia hib hne
    simp only [LockSet.Union, if_neg hne]
    rw [findStack_unionStacks a.stackMap b.stackMap id hn]
    have hkb : hasStackKey b.stackMap id = true := (hb id).1 hib
    by_cases hfa : findStack a.stackMap id = none
    · simp [hfa, hkb]
    · simp [hfa]
  · intro id hia hib
    have hne : ¬b.bits \ a.bits = ∅ := by
      intro he
      have : id ∈ b.bits \ a.bits := Finset.mem_sdiff.2 ⟨hib, hia⟩
      rw [he] at this
      exact absurd this (Finset.not_mem_empty id)
    simp only [LockSet.Union, if_neg hne]
    constructor
    · exact Finset.mem_union_right _ hib
    · rw [findStack_unionStacks a.stackMap b.stackMap id hn]
      have hfa : findStack a.stackMap id = none := by
        refine findStack_eq_none_of_not_hasKey a.stackMap id ?_
        rcases Bool.eq_false_or_eq_true (hasStackKey a.stackMap id) with h | h
        · exact absurd ((ha id).2 h) hia
        · exact h
      have hkb : hasStackKey b.stackMap id = true := (hb id).1 hib
      simp [hfa, hkb]

/-- Witness for the amended C3 theorem, applied at concrete locksets. -/
theorem union_stack_preference_amended_witness :
    findStack ((⟨0, {0}, [(0, some 5)]⟩ : LockSet).Union
        ⟨0, {0, 1}, [(0, some 7), (1, some 8)]⟩).stackMap 0 =
      if findStack (⟨0, {0}, [(0, some 5)]⟩ : LockSet).stackMap 0 = none
      then findStack (⟨0, {0, 1}, [(0, some 7), (1, some 8)]⟩ : LockSet).stackMap 0
      else findStack (⟨0, {0}, [(0, some 5)]⟩ : LockSet).stackMap 0 :=
  (union_stack_preference_amended ⟨0, {0}, [(0, some 5)]⟩
      ⟨0, {0, 1}, [(0, some 7), (1, some 8)]⟩ (by decide) (by decide) (by decide)).2.1
    0 (by decide) (by decide) (by decide)

/-- The string space after sequentially interning every label of a list
(the space component threaded through LockSet.Plus / LockSet.Minus). -/
def internAll (sp : StringSpace) : List String → StringSpace
  | [] => sp
  | l :: rest => internAll (sp.Intern l).2 rest

/-- The ids assigned to a list of labels when interned sequentially. -/
def internIds (sp : StringSpace) : List String → List Nat
  | [] => []
  | l :: rest => (sp.Intern l).1 :: internIds (sp.Intern l).2 rest

/-- `sp'` preserves every id assignment of `sp`. -/
def spKeeps (sp sp' : StringSpace) : Prop :=
  ∀ str id, lookupStr sp.m str = some id → lookupStr sp'.m str = some id

theorem lookupStr_append (m ext : List (String × Nat)) (str : String) (id : Nat)
    (h : lookupStr m str = some id) : lookupStr (m ++ ext) str = some id := by
  induction m with
  | nil => simp [lookupStr] at h
  | cons a rest ih =>
    obtain ⟨k, v⟩ := a
    by_cases hk : k = str
    · simpa [lookupStr, hk] using h
    · simp only [lookupStr, if_neg hk] at h
      simpa [lookupStr, hk] using ih h

theorem lookupStr_append_self (m : List (String × Nat)) (str : String) (v : Nat)
    (h : lookupStr m str = none) : lookupStr (m ++ [(str, v)]) str = some v := by
  induction m with
  | nil => simp [lookupStr]
  | cons a rest ih =>
    obtain ⟨k, w⟩ := a
    by_cases hk : k = str
    · simp [lookupStr, hk] at h
    · simp only [lookupStr, if_neg hk] at h
      simpa [lookupStr, hk] using ih h

theorem spKeeps_Intern (sp : StringSpace) (str : String) : spKeeps sp (sp.Intern str).2 := by
  intro s id h
  unfold StringSpace.Intern
  cases hl : lookupStr sp.m str with
  | some i => simpa using h
  | none => simpa using lookupStr_append sp.m [(str, sp.s.length)] s id h

theorem spKeeps_internAll (sp : StringSpace) (s : List String) :
    spKeeps sp (internAll sp s) := by
  induction s generalizing sp with
  | nil => intro a b h; simpa [internAll] using h
  | cons l rest ih =>
    intro a b h
    exact ih (sp.Intern l).2 a b (spKeeps_Intern sp l a b h)

theorem Intern_lookup (sp : StringSpace) (str : String) :
    lookupStr (sp.Intern str).2.m str = some (sp.Intern str).1 := by
  unfold StringSpace.Intern
  cases hl : lookupStr sp.m str with
  | some i => simpa using hl
  | none => simpa using lookupStr_append_self sp.m str sp.s.length hl

theorem Intern_of_lookup (sp : StringSpace) (str : String) (id : Nat)
    (h : lookupStr sp.m str = some id) : sp.Intern str = (id, sp) := by
  unfold StringSpace.Intern
  rw [h]

/-- Re-interning a list of labels after they have all been interned assigns
exactly the same ids and leaves the space unchanged. -/
theorem internIds_internAll (s : List String) : ∀ sp : StringSpace,
    internIds (internAll sp s) s = internIds sp s ∧
    internAll (internAll sp s) s = internAll sp s := by
  induction s with
  | nil => intro sp; exact ⟨rfl, rfl⟩
  | cons l rest ih =>
    intro sp
    have hl : lookupStr (internAll (sp.Intern l).2 rest).m l = some (sp.Intern l).1 :=
      spKeeps_internAll (sp.Intern l).2 rest l (sp.Intern l).1 (Intern_lookup sp l)
    have hIl : (internAll (sp.Intern l).2 rest).Intern l =
        ((sp.Intern l).1, internAll (sp.Intern l).2 rest) :=
      Intern_of_lookup _ l (sp.Intern l).1 hl
    constructor
    · show internIds (internAll (sp.Intern l).2 rest) (l :: rest) = _
      rw [internIds, hIl]
      simpa [internIds] using (ih (sp.Intern l).2).1
    · show internAll (internAll (sp.Intern l).2 rest) (l :: rest) = _
      rw [internAll, hIl]
      simpa [internAll] using (ih (sp.Intern l).2).2

/-- Characterization of LockSet.Plus: the threaded space is `internAll`, the
bits gain exactly the interned ids, and the stack of each newly present id is
the supplied stack. -/
theorem LockSet.Plus_char (s : List String) :
    ∀ (set : LockSet) (sp : StringSpace) (stk : StackPtr),
    (set.Plus sp s stk).1 = internAll sp s ∧
    (set.Plus sp s stk).2.spId = set.spId ∧
    (set.Plus sp s stk).2.bits = set.bits ∪ (internIds sp s).toFinset ∧
    (∀ x, findStack (set.Plus sp s stk).2.stackMap x =
      if x ∈ internIds sp s ∧ x ∉ set.bits then stk else findStack set.stackMap x) ∧
    (∀ x, hasStackKey (set.Plus sp s stk).2.stackMap x = true ↔
      ((x ∈ internIds sp s ∧ x ∉ set.bits) ∨ hasStackKey set.stackMap x = true)) := by
  induction s with
  | nil =>
    intro set sp stk
    refine ⟨rfl, rfl, by simp [LockSet.Plus, internAll, internIds], ?_, ?_⟩ <;>
      simp [LockSet.Plus, internIds]
  | cons l rest ih =>
    intro set sp stk
    by_cases hb : (sp.Intern l).1 ∈ set.bits
    · have hstep : set.Plus sp (l :: rest) stk = set.Plus (sp.Intern l).2 rest stk := by
        simp [LockSet.Plus, hb]
      obtain ⟨ih1, ih2, ih3, ih4, ih5⟩ := ih set (sp.Intern l).2 stk
      rw [hstep]
      refine ⟨by simpa [internAll] using ih1, ih2, ?_, ?_, ?_⟩
      · rw [ih3]
        ext x
        by_cases hx : x = (sp.Intern l).1 <;>
          simp [internIds, hx, hb]
      · intro x
        rw [ih4 x]
        by_cases hx : x = (sp.Intern l).1
        · subst hx
          simp [internIds, hb]
        · simp [internIds, hx]
      · intro x
        rw [ih5 x]
        by_cases hx : x = (sp.Intern l).1
        · subst hx
          simp [internIds, hb]
        · simp [internIds, hx]
    · have hstep : set.Plus sp (l :: rest) stk =
          LockSet.Plus ⟨set.spId, insert (sp.Intern l).1 set.bits,
            setStack set.stackMap (sp.Intern l).1 stk⟩ (sp.Intern l).2 rest stk := by
        simp [LockSet.Plus, hb]
      obtain ⟨ih1, ih2, ih3, ih4, ih5⟩ :=
        ih ⟨set.spId, insert (sp.Intern l).1 set.bits,
          setStack set.stackMap (sp.Intern l).1 stk⟩ (sp.Intern l).2 stk
      rw [hstep]
      refine ⟨by simpa [internAll] using ih1, ih2, ?_, ?_, ?_⟩
      · rw [ih3]
        ext x
        by_cases hx : x = (sp.Intern l).1 <;>
          simp [internIds, hx, hb]
      · intro x
        rw [ih4 x]
        by_cases hx : x = (sp.Intern l).1
        · subst hx
          simp [internIds, findStack_setStack, hb]
        · by_cases hr : x ∈ internIds (sp.Intern l).2 rest <;>
          by_cases hxb : x ∈ set.bits <;>
            simp [internIds, hx, hr, hxb, findStack_setStack, Ne.symm hx]
      · intro x
        rw [ih5 x]
        by_cases hx : x = (sp.Intern l).1
        · subst hx
          simp [internIds, hasStackKey_setStack, hb]
        · by_cases hr : x ∈ internIds (sp.Intern l).2 rest <;>
          by_cases hxb : x ∈ set.bits <;>
            simp [internIds, hx, hr, hxb, hasStackKey_setStack, Ne.symm hx]

/-- Characterization of LockSet.Minus: bits lose exactly the interned ids,
and the stacks entries of removed ids disappear. -/
theorem LockSet.Minus_char (s : List String) :
    ∀ (set : LockSet) (sp : StringSpace),
    (set.Minus sp s).2.spId = set.spId ∧
    (set.Minus sp s).2.bits = set.bits \ (internIds sp s).toFinset ∧
    (∀ x, findStack (set.Minus sp s).2.stackMap x =
      if x ∈ internIds sp s ∧ x ∈ set.bits then none else findStack set.stackMap x) ∧
    (∀ x, hasStackKey (set.Minus sp s).2.stackMap x = true ↔
      (¬(x ∈ internIds sp s ∧ x ∈ set.bits) ∧ hasStackKey set.stackMap x = true)) := by
  induction s with
  | nil =>
    intro set sp
    refine ⟨rfl, by simp [LockSet.Minus, internIds], ?_, ?_⟩ <;>
      simp [LockSet.Minus, internIds]
  | cons l rest ih =>
    intro set sp
    by_cases hb : (sp.Intern l).1 ∈ set.bits
    · have hstep : set.Minus sp (l :: rest) =
          LockSet.Minus ⟨set.spId, set.bits.erase (sp.Intern l).1,
            delStack set.stackMap (sp.Intern l).1⟩ (sp.Intern l).2 rest := by
        simp [LockSet.Minus, hb]
      obtain ⟨ih1, ih2, ih3, ih4⟩ :=
        ih ⟨set.spId, set.bits.erase (sp.Intern l).1,
          delStack set.stackMap (sp.Intern l).1⟩ (sp.Intern l).2
      rw [hstep]
      refine ⟨ih1, ?_, ?_, ?_⟩
      · rw [ih2]
        ext x
        by_cases hx : x = (sp.Intern l).1 <;> simp [internIds, hx, hb]
      · intro x
        rw [ih3 x]
        by_cases hx : x = (sp.Intern l).1
        · subst hx
          simp [internIds, findStack_delStack, hb]
        · by_cases hr : x ∈ internIds (sp.Intern l).2 rest <;>
          by_cases hxb : x ∈ set.bits <;>
            simp [internIds, hx, hr, hxb, findStack_delStack, Ne.symm hx]
      · intro x
        rw [ih4 x]
        by_cases hx : x = (sp.Intern l).1
        · subst hx
          simp [internIds, hasStackKey_delStack, hb]
        · by_cases hr : x ∈ internIds (sp.Intern l).2 rest <;>
          by_cases hxb : x ∈ set.bits <;>
            simp [internIds, hx, hr, hxb, hasStackKey_delStack, Ne.symm hx]
    · have hstep : set.Minus sp (l :: rest) = set.Minus (sp.Intern l).2 rest := by
        simp [LockSet.Minus, hb]
      obtain ⟨ih1, ih2, ih3, ih4⟩ := ih set (sp.Intern l).2
      rw [hstep]
      refine ⟨ih1, ?_, ?_, ?_⟩
      · rw [ih2]
        ext x
        by_cases hx : x = (sp.Intern l).1 <;> simp [internIds, hx, hb]
      · intro x
        rw [ih3 x]
        by_cases hx : x = (sp.Intern l).1
        · subst hx
          simp [internIds, hb]
        · simp [internIds, hx]
      · intro x
        rw [ih4 x]
        by_cases hx : x = (sp.Intern l).1
        · subst hx
          simp [internIds, hb]
        · simp [internIds, hx]

theorem nodupKeys_setStack (l : List (Nat × StackPtr)) (id : Nat) (v : StackPtr)
    (h : nodupKeys l = true) : nodupKeys (setStack l id v) = true := by
  induction l with
  | nil => simp [setStack, nodupKeys, hasStackKey]
  | cons a rest ih =>
    obtain ⟨k, w⟩ := a
    simp only [nodupKeys, Bool.and_eq_true, Bool.not_eq_true'] at h
    by_cases hk : k = id
    · subst hk
      simp [setStack, nodupKeys, h.1, h.2]
    · simp only [setStack, if_neg hk, nodupKeys, Bool.and_eq_true, Bool.not_eq_true']
      refine ⟨?_, ih h.2⟩
      rw [hasStackKey_setStack]
      simp only [h.1, Bool.or_false, decide_eq_false_iff_not]
      exact fun hh => hk hh.symm

theorem nodupKeys_delStack (l : List (Nat × StackPtr)) (id : Nat)
    (h : nodupKeys l = true) : nodupKeys (delStack l id) = true := by
  induction l with
  | nil => simp [delStack, nodupKeys]
  | cons a rest ih =>
    obtain ⟨k, w⟩ := a
    simp only [nodupKeys, Bool.and_eq_true, Bool.not_eq_true'] at h
    by_cases hk : k = id
    · simp [delStack, hk, ih h.2]
    · simp only [delStack, if_neg hk, nodupKeys, Bool.and_eq_true, Bool.not_eq_true']
      refine ⟨?_, ih h.2⟩
      rw [hasStackKey_delStack]
      simp [h.1]

theorem LockSet.Plus_nodup (s : List String) :
    ∀ (set : LockSet) (sp : StringSpace) (stk : StackPtr),
    nodupKeys set.stackMap = true → nodupKeys (set.Plus sp s stk).2.stackMap = true := by
  induction s with
  | nil => intro set sp stk h; simpa [LockSet.Plus] using h
  | cons l rest ih =>
    intro set sp stk h
    by_cases hb : (sp.Intern l).1 ∈ set.bits
    · simpa [LockSet.Plus, hb] using ih set (sp.Intern l).2 stk h
    · simpa [LockSet.Plus, hb] using
        ih ⟨set.spId, insert (sp.Intern l).1 set.bits,
          setStack set.stackMap (sp.Intern l).1 stk⟩ (sp.Intern l).2 stk
          (nodupKeys_setStack _ _ _ h)

theorem LockSet.Minus_nodup (s : List String) :
    ∀ (set : LockSet) (sp : StringSpace),
    nodupKeys set.stackMap = true → nodupKeys (set.Minus sp s).2.stackMap = true := by
  induction s with
  | nil => intro set sp h; simpa [LockSet.Minus] using h
  | cons l rest ih =>
    intro set sp h
    by_cases hb : (sp.Intern l).1 ∈ set.bits
    · simpa [LockSet.Minus, hb] using
        ih ⟨set.spId, set.bits.erase (sp.Intern l).1,
          delStack set.stackMap (sp.Intern l).1⟩ (sp.Intern l).2
          (nodupKeys_delStack _ _ h)
    · simpa [LockSet.Minus, hb] using ih set (sp.Intern l).2 h

theorem findStack_of_mem_nodup (l : List (Nat × StackPtr)) (kv : Nat × StackPtr)
    (hn : nodupKeys l = true) (hm : kv ∈ l) : findStack l kv.1 = kv.2 := by
  induction l with
  | nil => cases hm
  | cons a rest ih =>
    obtain ⟨k1, w⟩ := a
    simp only [nodupKeys, Bool.and_eq_true, Bool.not_eq_true'] at hn
    rcases List.mem_cons.1 hm with h | h
    · subst h
      simp [findStack]
    · by_cases hk : k1 = kv.1
      · have hkey : hasStackKey rest kv.1 = true := (hasStackKey_iff rest kv.1).2 ⟨kv, h, rfl⟩
        have h1 := hn.1
        rw [hk, hkey] at h1
        cases h1
      · simp [findStack, hk, ih hn.2 h]

/-- C7: for every LockSet L, points-to label set S and stack, if no lock
class of S is present in L before the call (no sequentially interned id of S
has its bit set in L), then `L.Plus(S, stk).Minus(S)` is Equal to L; the
StringSpace is threaded through both calls exactly as the shared pointer is
in the source. The `nodupKeys` hypothesis states that L's stacks map is a
genuine Go map (no duplicate keys). -/
theorem plus_minus_roundtrip (L : LockSet) (sp : StringSpace) (S : List String)
    (stk : StackPtr) (hnd : nodupKeys L.stackMap = true)
    (h : ∀ id ∈ internIds sp S, id ∉ L.bits) :
    ((L.Plus sp S stk).2.Minus (L.Plus sp S stk).1 S).2.Equal L = true := by
  obtain ⟨hp1, hp2, hp3, hp4, hp5⟩ := LockSet.Plus_char S L sp stk
  set L1 := (L.Plus sp S stk).2 with hL1
  have hsp1 : (L.Plus sp S stk).1 = internAll sp S := hp1
  obtain ⟨hm1, hm2, hm3, hm4⟩ := LockSet.Minus_char S L1 (internAll sp S)
  set L2 := (L1.Minus (internAll sp S) S).2 with hL2
  have hids : internIds (internAll sp S) S = internIds sp S :=
    (internIds_internAll S sp).1
  have hbitsL1 : L1.bits = L.bits ∪ (internIds sp S).toFinset := hp3
  -- the final bits are L's bits again
  have hbits2 : L2.bits = L.bits := by
    rw [hm2, hids, hbitsL1]
    ext x
    simp only [Finset.mem_sdiff, Finset.mem_union, List.mem_toFinset]
    constructor
    · rintro ⟨h1 | h1, h2⟩
      · exact h1
      · exact absurd h1 h2
    · intro h1
      exact ⟨Or.inl h1, fun hc => (h x hc) h1⟩
  have hspid2 : L2.spId = L.spId := by rw [hm1, hp2]
  -- pointwise: L2's lookups agree with L's on every key L2 still has
  have hfind2 : ∀ x, x ∉ internIds sp S → findStack L2.stackMap x = findStack L.stackMap x := by
    intro x hx
    rw [hm3 x, hids]
    simp only [hx, false_and, if_false]
    rw [hp4 x]
    simp [hx]
  have hkey2 : ∀ x, hasStackKey L2.stackMap x = true → x ∉ internIds sp S := by
    intro x hkx hx
    have hxb1 : x ∈ L1.bits := by
      rw [hbitsL1]
      exact Finset.mem_union_right _ (List.mem_toFinset.2 hx)
    have := (hm4 x).1 hkx
    rw [hids] at this
    exact this.1 ⟨hx, hxb1⟩
  have hnd1 : nodupKeys L1.stackMap = true := LockSet.Plus_nodup S L sp stk hnd
  have hnd2 : nodupKeys L2.stackMap = true :=
    LockSet.Minus_nodup S L1 (internAll sp S) hnd1
  -- assemble Equal
  rw [show (L.Plus sp S stk).1 = internAll sp S from hsp1]
  show L2.Equal L = true
  unfold LockSet.Equal
  simp only [Bool.and_eq_true, decide_eq_true_eq, List.all_eq_true]
  refine ⟨⟨hspid2, hbits2⟩, ?_⟩
  intro kv hkv
  have hk : hasStackKey L2.stackMap kv.1 = true :=
    (hasStackKey_iff _ _).2 ⟨kv, hkv, rfl⟩
  have hnotin : kv.1 ∉ internIds sp S := hkey2 kv.1 hk
  have hlk : findStack L2.stackMap kv.1 = kv.2 :=
    findStack_of_mem_nodup _ kv hnd2 hkv
  rw [← hfind2 kv.1 hnotin, hlk]

/-- Witness for C7 at a concrete lockset, points-to set and stack. -/
theorem plus_minus_roundtrip_witness :
    (((⟨0, {0}, [(0, some 1)]⟩ : LockSet).Plus ⟨[("A", 0)], ["A"]⟩ ["B"] (some 2)).2.Minus
      ((⟨0, {0}, [(0, some 1)]⟩ : LockSet).Plus ⟨[("A", 0)], ["A"]⟩ ["B"] (some 2)).1
      ["B"]).2.Equal ⟨0, {0}, [(0, some 1)]⟩ = true :=
  plus_minus_roundtrip ⟨0, {0}, [(0, some 1)]⟩ ⟨[("A", 0)], ["A"]⟩ ["B"] (some 2)
    (by decide) (by decide)

/-- Modelled from the spec: the constant payload carried by a DynConst
(spec §3 "DynValue"); the go/constant values used by the engine are booleans
and numbers. The ValState implementation file of this repository is not under
src/ (main.go only uses it), so DynValue and ValState are modelled from
spec §3 and §4.D. -/
inductive ConstVal where
  | int (i : Int)
  | bool (b : Bool)
deriving DecidableEq

/-- Modelled from the spec: DynValue (spec §3), the closed sum
`Const(constant) | HeapPtr(HeapObject) | Struct(field → HeapObject)`.
HeapObjects are compared only by identity, so they are addresses. -/
inductive DynValue where
  | const (c : ConstVal)
  | heapPtr (h : Nat)
  | struct (fields : List (Nat × Nat))
deriving DecidableEq

/-- First-match association lookup used for the modelled ValState maps. -/
def vsFind : List (Nat × DynValue) → Nat → Option DynValue
  | [], _ => none
  | (k, v) :: rest, x => if k = x then some v else vsFind rest x

/-- Association update (replace or append) for the modelled ValState maps. -/
def vsSet : List (Nat × DynValue) → Nat → DynValue → List (Nat × DynValue)
  | [], x, d => [(x, d)]
  | (k, v) :: rest, x, d =>
    if k = x then (x, d) :: rest else (k, v) :: vsSet rest x d

/-- Modelled from the spec: ValState (spec §3) — an immutable mapping from
SSA-value identity to DynValue plus a separate heap mapping from HeapObject
to DynValue. SSA values and HeapObjects are identified by Nat. -/
structure ValState where
  bindings : List (Nat × DynValue)
  heap : List (Nat × DynValue)
deriving DecidableEq

/-- Modelled from the spec: `get(v)` — the symbolic value bound to an SSA
value, if any (Go returns nil for unbound). -/
def ValState.Get (vs : ValState) (v : Nat) : Option DynValue :=
  vsFind vs.bindings v

/-- Modelled from the spec: `extend(v, dyn)` — bind an SSA value. -/
def ValState.Extend (vs : ValState) (v : Nat) (d : DynValue) : ValState :=
  ⟨vsSet vs.bindings v d, vs.heap⟩

/-- Modelled from the spec: `extend_heap(h, dyn)` — bind a heap cell. -/
def ValState.ExtendHeap (vs : ValState) (h : Nat) (d : DynValue) : ValState :=
  ⟨vs.bindings, vsSet vs.heap h d⟩

/-- Modelled from the spec: `limit_to_heap()` — drop all SSA bindings and
keep the heap. -/
def ValState.LimitToHeap (vs : ValState) : ValState :=
  ⟨[], vs.heap⟩

/-- Modelled from the spec: masked equality `equal_at(other, mask)` (§4.D):
agree on every SSA value in the mask and on all heap entries (keys of either
heap). -/
def ValState.EqualAt (vs vs2 : ValState) (mask : List Nat) : Bool :=
  mask.all (fun v => vsFind vs.bindings v = vsFind vs2.bindings v) &&
  vs.heap.all (fun kv => vsFind vs.heap kv.1 = vsFind vs2.heap kv.1) &&
  vs2.heap.all (fun kv => vsFind vs.heap kv.1 = vsFind vs2.heap kv.1)

/-- PathState (main.go:1323-1329): the state during execution of a
particular function: basic block (by index), lockset, value state, and the
liveness mask installed on block entry. -/
structure PathState where
  block : Nat
  lockSet : LockSet
  vs : ValState
  mask : List Nat
deriving DecidableEq

/-- pathStateKey (main.go:1331-1334): block plus the lockset's hash key. -/
abbrev PathStateKey := Nat × Finset Nat

/-- PathState.HashKey (main.go:1338-1342): captures everything except lock
stacks and value state. -/
def PathState.HashKey (ps : PathState) : PathStateKey :=
  (ps.block, ps.lockSet.HashKey)

/-- PathState.Equal (main.go:1346-1351): same block, Equal locksets, and
value states equal at the receiver's mask. -/
def PathState.Equal (ps ps2 : PathState) : Bool :=
  ps.block = ps2.block && ps.lockSet.Equal ps2.lockSet && ps.vs.EqualAt ps2.vs ps.mask

/-- Go bucket lookup in `m map[pathStateKey][]PathState` (first match). -/
def bucketFind {α : Type} : List (PathStateKey × α) → PathStateKey → Option α
  | [], _ => none
  | (k, v) :: rest, x => if k = x then some v else bucketFind rest x

/-- Go bucket assignment (replace or append). -/
def bucketSet {α : Type} : List (PathStateKey × α) → PathStateKey → α → List (PathStateKey × α)
  | [], x, v => [(x, v)]
  | (k, w) :: rest, x, v =>
    if k = x then (x, v) :: rest else (k, w) :: bucketSet rest x v

/-- Go `delete(m, key)`. -/
def bucketDel {α : Type} : List (PathStateKey × α) → PathStateKey → List (PathStateKey × α)
  | [], _ => []
  | (k, w) :: rest, x => if k = x then bucketDel rest x else (k, w) :: bucketDel rest x

/-- PathStateSet (main.go:1353-1360): a mutable set of PathStates, hashed by
(block, lockset hash key) with a linear Equal probe within a bucket. -/
structure PathStateSet where
  m : List (PathStateKey × List PathState)
deriving DecidableEq

/-- NewPathStateSet (main.go:1359-1361). -/
def NewPathStateSet : PathStateSet := ⟨[]⟩

/-- The bucket stored under a key (a missing bucket is the nil slice). -/
def PathStateSet.bucket (set : PathStateSet) (key : PathStateKey) : List PathState :=
  (bucketFind set.m key).getD []

/-- PathStateSet.Add (main.go:1364-1373): return unchanged if some stored
state in the bucket is Equal to ps, else append ps to the bucket. -/
def PathStateSet.Add (set : PathStateSet) (ps : PathState) : PathStateSet :=
  let slice := set.bucket ps.HashKey
  if slice.any (fun e => e.Equal ps) then set
  else ⟨bucketSet set.m ps.HashKey (slice ++ [ps])⟩

/-- PathStateSet.Contains (main.go:1377-1388): whether the set contains ps,
and the number of stored PathStates sharing ps's hash key. -/
def PathStateSet.Contains (set : PathStateSet) (ps : PathState) : Bool × Nat :=
  let slice := set.bucket ps.HashKey
  (slice.any (fun e => e.Equal ps), slice.length)

/-- The inner loop of PathStateSet.MapInPlace (main.go:1396-1411), exactly as
written: when `f slice[i]` differs from `slice[i]` (by Equal), the last
element is swapped into position i, the slice is shrunk, the image is queued,
and the loop continues at i+1 — the swapped-in element is not revisited.
`fuel` is only a structural bound on the trip count (each iteration shrinks
`slice.length - i`, so the caller's `slice.length` is always enough). -/
def mipLoop (f : PathState → PathState) :
    Nat → List PathState → Nat → List PathState → List PathState × List PathState
  | 0, slice, _, toAdd => (slice, toAdd)
  | fuel + 1, slice, i, toAdd =>
    if h : i < slice.length then
      let ps := slice.get ⟨i, h⟩
      let ps2 := f ps
      if ps.Equal ps2 then mipLoop f fuel slice (i + 1) toAdd
      else
        let last := slice.get ⟨slice.length - 1, by omega⟩
        mipLoop f fuel ((slice.set i last).dropLast) (i + 1) (toAdd ++ [ps2])
    else (slice, toAdd)

/-- The per-bucket step of PathStateSet.MapInPlace (the loop body at
main.go:1395-1411): run the inner loop on the bucket; drop the bucket if the
loop emptied it, keep the shrunk slice otherwise, and queue the images. -/
def mipStep (f : PathState → PathState)
    (acc : List (PathStateKey × List PathState) × List PathState)
    (kv : PathStateKey × List PathState) :
    List (PathStateKey × List PathState) × List PathState :=
  let r := mipLoop f kv.2.length kv.2 0 []
  (if r.1.isEmpty && !kv.2.isEmpty then acc.1 else acc.1 ++ [(kv.1, r.1)],
   acc.2 ++ r.2)

/-- PathStateSet.MapInPlace (main.go:1393-1415): run the inner loop on every
bucket (deleting a bucket its loop emptied), then Add every queued image. -/
def PathStateSet.MapInPlace (set : PathStateSet) (f : PathState → PathState) : PathStateSet :=
  let res := set.m.foldl (mipStep f) ([], [])
  res.2.foldl (fun s ps => s.Add ps) ⟨res.1⟩

/-- PathStateSet.FlatMap (main.go:1430-1441): build a fresh set from the
Adds of every image of every stored state (the scratch-slice argument of the
Go callback is a reuse artifact and is dropped). -/
def PathStateSet.FlatMap (set : PathStateSet) (f : PathState → List PathState) : PathStateSet :=
  set.m.foldl
    (fun out kv => kv.2.foldl (fun out2 ps => (f ps).foldl (fun o nps => o.Add nps) out2) out)
    ⟨[]⟩

/-- The list of all PathStates stored in the set (bucket order). -/
def PathStateSet.entries (set : PathStateSet) : List PathState :=
  set.m.foldr (fun kv acc => kv.2 ++ acc) []

/-- PathStateMap (main.go:1444-1456): a mutable map keyed by PathState,
generic in the stored value (the source stores `interface{}`). -/
structure PathStateMap (L : Type) where
  m : List (PathStateKey × List (PathState × L))

/-- The bucket update of PathStateMap.Set (main.go:1459-1469): replace the
value of the first entry whose stored PathState is Equal to ps, else append
a fresh entry. -/
def psmSetEntry {L : Type} : List (PathState × L) → PathState → L → List (PathState × L)
  | [], ps, val => [(ps, val)]
  | (q, w) :: rest, ps, val =>
    if q.Equal ps then (q, val) :: rest else (q, w) :: psmSetEntry rest ps val

/-- The bucket probe of PathStateMap.Get (main.go:1472-1480). -/
def psmGetEntry {L : Type} : List (PathState × L) → PathState → Option L
  | [], _ => none
  | (q, w) :: rest, ps => if q.Equal ps then some w else psmGetEntry rest ps

/-- PathStateMap.Set (main.go:1459-1469). -/
def PathStateMap.Set {L : Type} (psm : PathStateMap L) (ps : PathState) (val : L) :
    PathStateMap L :=
  let slice := (bucketFind psm.m ps.HashKey).getD []
  ⟨bucketSet psm.m ps.HashKey (psmSetEntry slice ps val)⟩

/-- PathStateMap.Get (main.go:1472-1480). -/
def PathStateMap.Get {L : Type} (psm : PathStateMap L) (ps : PathState) : Option L :=
  psmGetEntry ((bucketFind psm.m ps.HashKey).getD []) ps

/-- Concrete transform for the MapInPlace failing input: rebind the single
lock class to a different acquisition stack (pointer 9). -/
def mipTransform (ps : PathState) : PathState :=
  { ps with lockSet := ⟨0, {0}, [(0, some 9)]⟩ }

/-- First state of the MapInPlace failing input (lock class 0 acquired at
stack pointer 1). -/
def mipPsA : PathState := ⟨5, ⟨0, {0}, [(0, some 1)]⟩, ⟨[], []⟩, []⟩

/-- Second state of the MapInPlace failing input (same hash key as mipPsA:
same block, same bits; different acquisition stack). -/
def mipPsB : PathState := ⟨5, ⟨0, {0}, [(0, some 2)]⟩, ⟨[], []⟩, []⟩

/-- C1: the claim fails on the code. MapInPlace's removal loop
(main.go:1396-1411) swaps the last element of a bucket into position i and
then advances i, so the swapped-in element is never passed to f. On the
two-element bucket {mipPsA, mipPsB} with a transform that changes both,
the result still contains mipPsB untransformed, and mipPsB is not Equal to
any f-image — contradicting both the claim and the function's own doc
comment ("applies f to each PathState in set"). -/
theorem mapInPlace_skips_swapped_state :
    ((NewPathStateSet.Add mipPsA).Add mipPsB).Contains mipPsA =
      (true, 2) ∧
    ((NewPathStateSet.Add mipPsA).Add mipPsB).Contains mipPsB =
      (true, 2) ∧
    mipPsA.Equal (mipTransform mipPsA) = false ∧
    mipPsB.Equal (mipTransform mipPsB) = false ∧
    ((((NewPathStateSet.Add mipPsA).Add mipPsB).MapInPlace mipTransform).Contains
      mipPsB).1 = true ∧
    mipPsB.Equal (mipTransform mipPsA) = false ∧
    mipPsB.Equal (mipTransform mipPsB) = false ∧
    ((((NewPathStateSet.Add mipPsA).Add mipPsB).MapInPlace mipTransform).entries.all
      (fun e => e.Equal (mipTransform mipPsA) || e.Equal (mipTransform mipPsB))) = false := by
  decide

theorem ValState.EqualAt_refl (a : ValState) (m : List Nat) : a.EqualAt a m = true := by
  unfold ValState.EqualAt
  simp

theorem ValState.EqualAt_symm (a b : ValState) (m : List Nat)
    (h : a.EqualAt b m = true) : b.EqualAt a m = true := by
  unfold ValState.EqualAt at h ⊢
  simp only [Bool.and_eq_true, List.all_eq_true, decide_eq_true_eq] at h ⊢
  obtain ⟨⟨h1, h2⟩, h3⟩ := h
  exact ⟨⟨fun v hv => (h1 v hv).symm, fun kv hkv => (h3 kv hkv).symm⟩,
    fun kv hkv => (h2 kv hkv).symm⟩

theorem LockSet.Equal_refl (a : LockSet) (hn : nodupKeys a.stackMap = true) :
    a.Equal a = true := by
  unfold LockSet.Equal
  simp only [Bool.and_eq_true, decide_eq_true_eq, List.all_eq_true]
  refine ⟨by simp, fun kv hkv => by simpa using findStack_of_mem_nodup _ kv hn hkv⟩

theorem LockSet.Equal_symm (a b : LockSet) (ha : a.WF) (hb : b.WF)
    (hna : nodupKeys a.stackMap = true) (hnb : nodupKeys b.stackMap = true)
    (h : a.Equal b = true) : b.Equal a = true := by
  unfold LockSet.Equal at h ⊢
  simp only [Bool.and_eq_true, decide_eq_true_eq, List.all_eq_true] at h ⊢
  obtain ⟨⟨hsp, hbits⟩, hstacks⟩ := h
  refine ⟨⟨hsp.symm, hbits.symm⟩, ?_⟩
  intro kv hkv
  have hkb : hasStackKey b.stackMap kv.1 = true := (hasStackKey_iff _ _).2 ⟨kv, hkv, rfl⟩
  have hkbits : kv.1 ∈ b.bits := (hb kv.1).2 hkb
  have hkabits : kv.1 ∈ a.bits := by rw [hbits]; exact hkbits
  have hka : hasStackKey a.stackMap kv.1 = true := (ha kv.1).1 hkabits
  obtain ⟨kva, hkva, hkeq⟩ := (hasStackKey_iff _ _).1 hka
  have h1 : findStack b.stackMap kva.1 = kva.2 := by simpa using hstacks kva hkva
  have h2 : findStack b.stackMap kv.1 = kv.2 := findStack_of_mem_nodup _ kv hnb hkv
  have h3 : findStack a.stackMap kva.1 = kva.2 := findStack_of_mem_nodup _ kva hna hkva
  rw [hkeq] at h1 h3
  exact h3.trans (h1.symm.trans h2)

/-- Well-formedness of a PathState relative to the per-block mask table
`maskFn` (the code installs `ifDeps[b.Index]` as the mask on block entry, so
the mask is a function of the block): the lockset satisfies the integrity
invariant, its stacks map has unique keys (it is a Go map), and the mask is
the block's mask. -/
def PSWF (maskFn : Nat → List Nat) (ps : PathState) : Prop :=
  ps.lockSet.WF ∧ nodupKeys ps.lockSet.stackMap = true ∧ ps.mask = maskFn ps.block

theorem PathState.equalRefl (ps : PathState) (hn : nodupKeys ps.lockSet.stackMap = true) :
    ps.Equal ps = true := by
  unfold PathState.Equal
  simp [LockSet.Equal_refl ps.lockSet hn, ValState.EqualAt_refl]

theorem PathState.equalSymm (maskFn : Nat → List Nat) (a b : PathState)
    (hwa : PSWF maskFn a) (hwb : PSWF maskFn b) (h : a.Equal b = true) :
    b.Equal a = true := by
  unfold PathState.Equal at h ⊢
  simp only [Bool.and_eq_true, decide_eq_true_eq] at h ⊢
  obtain ⟨⟨hb, hl⟩, hv⟩ := h
  have hmask : b.mask = a.mask := by
    rw [hwb.2.2, hwa.2.2, hb]
  refine ⟨⟨hb.symm, LockSet.Equal_symm _ _ hwa.1 hwb.1 hwa.2.1 hwb.2.1 hl⟩, ?_⟩
  rw [hmask]
  exact ValState.EqualAt_symm _ _ _ hv

theorem PathState.Equal_hashKey (a b : PathState) (h : a.Equal b = true) :
    a.HashKey = b.HashKey := by
  unfold PathState.Equal at h
  unfold LockSet.Equal at h
  simp only [Bool.and_eq_true, decide_eq_true_eq] at h
  unfold PathState.HashKey LockSet.HashKey
  rw [h.1.1, h.1.2.1.2]

/-- Removing the element at position i by swapping in the last element and
shrinking (the Go idiom at main.go:1402-1403) yields a permutation of
deleting position i directly. -/
theorem swapRemove_perm {α : Type} (l : List α) (i : Nat) (h : i < l.length) :
    List.Perm ((l.set i (l.get ⟨l.length - 1, by omega⟩)).dropLast) (l.eraseIdx i) := by
  have hne : l ≠ [] := by
    intro he
    subst he
    simp at h
  by_cases hi : i = l.length - 1
  · subst hi
    have hset : l.set (l.length - 1) (l.get ⟨l.length - 1, by omega⟩) = l := by
      apply List.ext_getElem
      · simp
      · intro n h1 h2
        simp only [List.getElem_set]
        split
        · next heq => subst heq; rfl
        · rfl
    rw [hset, List.dropLast_eq_take, List.eraseIdx_eq_take_drop_succ]
    have : l.length - 1 + 1 = l.length := by omega
    rw [this, List.drop_length, List.append_nil]
  · have hlt : i < l.length - 1 := by omega
    have hset : l.set i (l.get ⟨l.length - 1, by omega⟩) =
        l.take i ++ l.get ⟨l.length - 1, by omega⟩ :: l.drop (i + 1) :=
      List.set_eq_take_cons_drop _ h
    have hdne : l.drop (i + 1) ≠ [] := by
      intro he
      have := congrArg List.length he
      simp only [List.length_drop, List.length_nil] at this
      omega
    have hlast : (l.drop (i + 1)).getLast hdne = l.get ⟨l.length - 1, by omega⟩ := by
      rw [List.getLast_eq_getElem, List.get_eq_getElem, List.getElem_drop]
      congr 1
      simp only [List.length_drop]
      omega
    have hdecomp : (l.drop (i + 1)).dropLast ++ [l.get ⟨l.length - 1, by omega⟩] =
        l.drop (i + 1) := by
      rw [← hlast]
      exact List.dropLast_append_getLast hdne
    rw [hset, List.dropLast_append_of_ne_nil _ (by simp), List.eraseIdx_eq_take_drop_succ]
    have hcons : (l.get ⟨l.length - 1, by omega⟩ :: l.drop (i + 1)).dropLast =
        l.get ⟨l.length - 1, by omega⟩ :: (l.drop (i + 1)).dropLast := by
      cases hd : l.drop (i + 1) with
      | nil => exact absurd hd hdne
      | cons a rest => simp [List.dropLast_cons₂]
    rw [hcons]
    refine List.Perm.append_left (l.take i) ?_
    have hperm : List.Perm
        (l.get ⟨l.length - 1, by omega⟩ :: (l.drop (i + 1)).dropLast)
        ((l.drop (i + 1)).dropLast ++ [l.get ⟨l.length - 1, by omega⟩]) :=
      @List.perm_append_comm _ [l.get ⟨l.length - 1, by omega⟩] ((l.drop (i + 1)).dropLast)
    rw [hdecomp] at hperm
    exact hperm

/-- Mutual non-equality of two stored PathStates (the set-semantics
invariant relation). -/
def NonEq (a b : PathState) : Prop := a.Equal b = false ∧ b.Equal a = false

theorem NonEq_symm : ∀ a b : PathState, NonEq a b → NonEq b a :=
  fun _ _ h => ⟨h.2, h.1⟩

theorem bucketFind_mem {α : Type} (m : List (PathStateKey × α)) (k : PathStateKey) (v : α)
    (h : bucketFind m k = some v) : (k, v) ∈ m := by
  induction m with
  | nil => simp [bucketFind] at h
  | cons a rest ih =>
    obtain ⟨k1, v1⟩ := a
    by_cases hk : k1 = k
    · subst hk
      rw [bucketFind, if_pos rfl] at h
      cases h
      simp
    · rw [bucketFind, if_neg hk] at h
      exact List.mem_cons_of_mem _ (ih h)

theorem bucketFind_of_mem_nodup {α : Type} (m : List (PathStateKey × α))
    (kv : PathStateKey × α) (hn : (m.map Prod.fst).Nodup) (hm : kv ∈ m) :
    bucketFind m kv.1 = some kv.2 := by
  induction m with
  | nil => cases hm
  | cons a rest ih =>
    obtain ⟨k1, v1⟩ := a
    simp only [List.map_cons, List.nodup_cons] at hn
    rcases List.mem_cons.1 hm with h | h
    · subst h
      rw [bucketFind, if_pos rfl]
    · by_cases hk : k1 = kv.1
      · exfalso
        apply hn.1
        rw [hk]
        exact List.mem_map.2 ⟨kv, h, rfl⟩
      · rw [bucketFind, if_neg hk]
        exact ih hn.2 h

theorem bucketFind_none_keys {α : Type} (m : List (PathStateKey × α)) (k : PathStateKey)
    (h : bucketFind m k = none) : k ∉ m.map Prod.fst := by
  induction m with
  | nil => simp
  | cons a rest ih =>
    obtain ⟨k1, v1⟩ := a
    by_cases hk : k1 = k
    · rw [bucketFind, if_pos hk] at h
      cases h
    · rw [bucketFind, if_neg hk] at h
      simp only [List.map_cons, List.mem_cons]
      rintro (hc | hc)
      · exact hk hc.symm
      · exact ih h hc

theorem bucketSet_mem {α : Type} (m : List (PathStateKey × α)) (k : PathStateKey) (v : α)
    (kv : PathStateKey × α) (h : kv ∈ bucketSet m k v) : kv = (k, v) ∨ kv ∈ m := by
  induction m with
  | nil => simpa [bucketSet] using h
  | cons a rest ih =>
    obtain ⟨k1, v1⟩ := a
    by_cases hk : k1 = k
    · rw [bucketSet, if_pos hk] at h
      rcases List.mem_cons.1 h with h1 | h1
      · exact Or.inl h1
      · exact Or.inr (List.mem_cons_of_mem _ h1)
    · rw [bucketSet, if_neg hk] at h
      rcases List.mem_cons.1 h with h1 | h1
      · exact Or.inr (by simp [h1])
      · rcases ih h1 with h2 | h2
        · exact Or.inl h2
        · exact Or.inr (List.mem_cons_of_mem _ h2)

theorem bucketSet_keys_nodup {α : Type} (m : List (PathStateKey × α)) (k : PathStateKey)
    (v : α) (hn : (m.map Prod.fst).Nodup) : ((bucketSet m k v).map Prod.fst).Nodup := by
  induction m with
  | nil => simp [bucketSet]
  | cons a rest ih =>
    obtain ⟨k1, v1⟩ := a
    simp only [List.map_cons, List.nodup_cons] at hn
    by_cases hk : k1 = k
    · subst hk
      rw [bucketSet, if_pos rfl]
      simp only [List.map_cons, List.nodup_cons]
      exact hn
    · rw [bucketSet, if_neg hk]
      simp only [List.map_cons, List.nodup_cons]
      refine ⟨?_, ih hn.2⟩
      intro hc
      rcases List.mem_map.1 hc with ⟨kv2, hkv2, heq⟩
      rcases bucketSet_mem rest k v kv2 hkv2 with h1 | h1
      · rw [h1] at heq
        exact hk heq.symm
      · exact hn.1 (List.mem_map.2 ⟨kv2, h1, heq⟩)

theorem mipLoop_step_eq (f : PathState → PathState) (n : Nat) (slice : List PathState)
    (i : Nat) (toAdd : List PathState) (h : i < slice.length)
    (heq : (slice.get ⟨i, h⟩).Equal (f (slice.get ⟨i, h⟩)) = true) :
    mipLoop f (n + 1) slice i toAdd = mipLoop f n slice (i + 1) toAdd := by
  rw [mipLoop, dif_pos h]
  simp only [heq]
  rfl

theorem mipLoop_step_ne (f : PathState → PathState) (n : Nat) (slice : List PathState)
    (i : Nat) (toAdd : List PathState) (h : i < slice.length)
    (heq : ¬(slice.get ⟨i, h⟩).Equal (f (slice.get ⟨i, h⟩)) = true) :
    mipLoop f (n + 1) slice i toAdd =
      mipLoop f n ((slice.set i (slice.get ⟨slice.length - 1, by omega⟩)).dropLast)
        (i + 1) (toAdd ++ [f (slice.get ⟨i, h⟩)]) := by
  rw [mipLoop, dif_pos h]
  simp only [if_neg heq]

theorem mipLoop_step_stop (f : PathState → PathState) (n : Nat) (slice : List PathState)
    (i : Nat) (toAdd : List PathState) (h : ¬i < slice.length) :
    mipLoop f (n + 1) slice i toAdd = (slice, toAdd) := by
  rw [mipLoop, dif_neg h]

/-- Specification of the MapInPlace inner loop: the surviving slice is a
subset of the input, pairwise mutual non-equality survives, and every
queued image is the old queue or an f-image of an input element. -/
theorem mipLoop_spec (f : PathState → PathState) :
    ∀ (fuel : Nat) (slice : List PathState) (i : Nat) (toAdd : List PathState),
    (∀ x ∈ (mipLoop f fuel slice i toAdd).1, x ∈ slice) ∧
    (slice.Pairwise NonEq → (mipLoop f fuel slice i toAdd).1.Pairwise NonEq) ∧
    (∀ q ∈ (mipLoop f fuel slice i toAdd).2, q ∈ toAdd ∨ ∃ p ∈ slice, q = f p) := by
  intro fuel
  induction fuel with
  | zero =>
    intro slice i toAdd
    refine ⟨fun x hx => hx, fun hp => hp, fun q hq => Or.inl hq⟩
  | succ n ih =>
    intro slice i toAdd
    by_cases h : i < slice.length
    · by_cases heq : (slice.get ⟨i, h⟩).Equal (f (slice.get ⟨i, h⟩)) = true
      · rw [mipLoop_step_eq f n slice i toAdd h heq]
        exact ih slice (i + 1) toAdd
      · rw [mipLoop_step_ne f n slice i toAdd h heq]
        obtain ⟨iha, ihb, ihc⟩ :=
          ih ((slice.set i (slice.get ⟨slice.length - 1, by omega⟩)).dropLast) (i + 1)
            (toAdd ++ [f (slice.get ⟨i, h⟩)])
        have hperm := swapRemove_perm slice i h
        have hsubset : ∀ x ∈ (slice.set i
            (slice.get ⟨slice.length - 1, by omega⟩)).dropLast, x ∈ slice := by
          intro x hx
          exact (List.eraseIdx_sublist slice i).mem (hperm.mem_iff.1 hx)
        refine ⟨fun x hx => hsubset x (iha x hx), ?_, ?_⟩
        · intro hp
          refine ihb ?_
          rw [hperm.pairwise_iff (fun hab => NonEq_symm _ _ hab)]
          exact hp.sublist (List.eraseIdx_sublist slice i)
        · intro q hq
          rcases ihc q hq with h1 | ⟨p, hp, hfp⟩
          · rcases List.mem_append.1 h1 with h2 | h2
            · exact Or.inl h2
            · exact Or.inr ⟨slice.get ⟨i, h⟩, List.get_mem slice i h,
                List.mem_singleton.1 h2⟩
          · exact Or.inr ⟨p, hsubset p hp, hfp⟩
    · rw [mipLoop_step_stop f n slice i toAdd h]
      exact ⟨fun x hx => hx, fun hp => hp, fun q hq => Or.inl hq⟩

/-- The PathStateSet representation invariant: every stored state sits in
the bucket of its own hash key, bucket keys are unique (Go map), each
bucket's states are pairwise mutually non-Equal, and every stored state is
well formed (its mask is its block's mask). -/
def PathStateSet.Inv (maskFn : Nat → List Nat) (set : PathStateSet) : Prop :=
  (∀ kv ∈ set.m, ∀ ps ∈ kv.2, ps.HashKey = kv.1) ∧
  (set.m.map Prod.fst).Nodup ∧
  (∀ kv ∈ set.m, kv.2.Pairwise NonEq) ∧
  (∀ kv ∈ set.m, ∀ ps ∈ kv.2, PSWF maskFn ps)

theorem PathStateSet.mem_entries (set : PathStateSet) (e : PathState) :
    e ∈ set.entries ↔ ∃ kv ∈ set.m, e ∈ kv.2 := by
  unfold PathStateSet.entries
  induction set.m with
  | nil => simp
  | cons kv rest ih =>
    simp only [List.foldr_cons, List.mem_append, ih, List.mem_cons]
    constructor
    · rintro (h | ⟨kv2, h2, h3⟩)
      · exact ⟨kv, Or.inl rfl, h⟩
      · exact ⟨kv2, Or.inr h2, h3⟩
    · rintro ⟨kv2, h2 | h2, h3⟩
      · subst h2
        exact Or.inl h3
      · exact Or.inr ⟨kv2, h2, h3⟩

/-- A state Equal to a stored one is found by Add's probe: Add returns the
set unchanged. -/
theorem PathStateSet.Add_of_mem_equal (maskFn : Nat → List Nat) (set : PathStateSet)
    (ps e : PathState) (hInv : set.Inv maskFn) (he : e ∈ set.entries)
    (heq : e.Equal ps = true) : set.Add ps = set := by
  obtain ⟨kv, hkv, hekv⟩ := (set.mem_entries e).1 he
  have hkey : e.HashKey = kv.1 := hInv.1 kv hkv e hekv
  have hkey2 : ps.HashKey = kv.1 := by
    rw [← PathState.Equal_hashKey e ps heq]
    exact hkey
  have hfind : bucketFind set.m kv.1 = some kv.2 :=
    bucketFind_of_mem_nodup set.m kv hInv.2.1 hkv
  have hbucket : set.bucket ps.HashKey = kv.2 := by
    unfold PathStateSet.bucket
    rw [hkey2, hfind]
    rfl
  have hany : kv.2.any (fun x => x.Equal ps) = true :=
    List.any_eq_true.2 ⟨e, hekv, heq⟩
  unfold PathStateSet.Add
  simp [hbucket, hany]

/-- Add preserves the representation invariant. -/
theorem PathStateSet.Add_inv (maskFn : Nat → List Nat) (set : PathStateSet)
    (ps : PathState) (hInv : set.Inv maskFn) (hps : PSWF maskFn ps) :
    (set.Add ps).Inv maskFn := by
  unfold PathStateSet.Add
  by_cases hany : (set.bucket ps.HashKey).any (fun e => e.Equal ps) = true
  · simpa [hany] using hInv
  · simp only [hany, if_false, Bool.false_eq_true]
    have hslice : set.bucket ps.HashKey = [] ∨
        (ps.HashKey, set.bucket ps.HashKey) ∈ set.m := by
      unfold PathStateSet.bucket
      cases hf : bucketFind set.m ps.HashKey with
      | none => left; rfl
      | some sl => right; simpa using bucketFind_mem _ _ _ hf
    have hkeyed0 : ∀ x ∈ set.bucket ps.HashKey, x.HashKey = ps.HashKey := by
      rcases hslice with h | h
      · rw [h]; intro x hx; cases hx
      · intro x hx
        exact hInv.1 _ h x hx
    have hpw0 : (set.bucket ps.HashKey).Pairwise NonEq := by
      rcases hslice with h | h
      · rw [h]; exact List.Pairwise.nil
      · exact hInv.2.2.1 _ h
    have hwf0 : ∀ x ∈ set.bucket ps.HashKey, PSWF maskFn x := by
      rcases hslice with h | h
      · rw [h]; intro x hx; cases hx
      · intro x hx
        exact hInv.2.2.2 _ h x hx
    have hnoteq : ∀ x ∈ set.bucket ps.HashKey, NonEq x ps := by
      intro x hx
      have h1 : x.Equal ps = false := by
        rcases Bool.eq_false_or_eq_true (x.Equal ps) with h | h
        · exact absurd (List.any_eq_true.2 ⟨x, hx, h⟩) hany
        · exact h
      refine ⟨h1, ?_⟩
      rcases Bool.eq_false_or_eq_true (ps.Equal x) with h | h
      · exfalso
        have := PathState.equalSymm maskFn ps x hps (hwf0 x hx) h
        rw [this] at h1
        cases h1
      · exact h
    refine ⟨?_, ?_, ?_, ?_⟩
    · intro kv hkv x hx
      rcases bucketSet_mem _ _ _ _ hkv with h | h
      · subst h
        have hx2 : x ∈ set.bucket ps.HashKey ++ [ps] := hx
        show x.HashKey = ps.HashKey
        rcases List.mem_append.1 hx2 with h2 | h2
        · exact hkeyed0 x h2
        · rw [List.mem_singleton.1 h2]
      · exact hInv.1 kv h x hx
    · exact bucketSet_keys_nodup _ _ _ hInv.2.1
    · intro kv hkv
      rcases bucketSet_mem _ _ _ _ hkv with h | h
      · subst h
        show (set.bucket ps.HashKey ++ [ps]).Pairwise NonEq
        rw [List.pairwise_append]
        refine ⟨hpw0, List.pairwise_singleton _ _, ?_⟩
        intro a ha b hb
        rw [List.mem_singleton.1 hb]
        exact hnoteq a ha
      · exact hInv.2.2.1 kv h
    · intro kv hkv x hx
      rcases bucketSet_mem _ _ _ _ hkv with h | h
      · subst h
        have hx2 : x ∈ set.bucket ps.HashKey ++ [ps] := hx
        rcases List.mem_append.1 hx2 with h2 | h2
        · exact hwf0 x h2
        · rw [List.mem_singleton.1 h2]
          exact hps
      · exact hInv.2.2.2 kv h x hx

theorem PathStateSet.Inv_empty (maskFn : Nat → List Nat) :
    (⟨[]⟩ : PathStateSet).Inv maskFn := by
  refine ⟨?_, ?_, ?_, ?_⟩ <;> simp [PathStateSet.Inv]

theorem PathStateSet.foldl_Add_inv (maskFn : Nat → List Nat) :
    ∀ (l : List PathState) (s : PathStateSet), s.Inv maskFn →
    (∀ q ∈ l, PSWF maskFn q) →
    (l.foldl (fun acc ps => acc.Add ps) s).Inv maskFn := by
  intro l
  induction l with
  | nil => intro s hs _; exact hs
  | cons q rest ih =>
    intro s hs hq
    simp only [List.foldl_cons]
    exact ih (s.Add q) (PathStateSet.Add_inv maskFn s q hs (hq q (by simp)))
      (fun x hx => hq x (by simp [hx]))

/-- Invariant transport through MapInPlace's bucket fold: the rebuilt bucket
list keeps keying, pairwise mutual non-equality, well-formedness and key
uniqueness, and every queued image is well formed. -/
theorem mipFold_spec (maskFn : Nat → List Nat) (f : PathState → PathState)
    (hf : ∀ q, PSWF maskFn q → PSWF maskFn (f q)) :
    ∀ (ms accM : List (PathStateKey × List PathState)) (accAdd : List PathState),
    (∀ kv ∈ ms, ∀ x ∈ kv.2, x.HashKey = kv.1) →
    (∀ kv ∈ ms, kv.2.Pairwise NonEq) →
    (∀ kv ∈ ms, ∀ x ∈ kv.2, PSWF maskFn x) →
    (∀ kv ∈ accM, ∀ x ∈ kv.2, x.HashKey = kv.1) →
    (∀ kv ∈ accM, kv.2.Pairwise NonEq) →
    (∀ kv ∈ accM, ∀ x ∈ kv.2, PSWF maskFn x) →
    ((accM.map Prod.fst ++ ms.map Prod.fst).Nodup) →
    (∀ q ∈ accAdd, PSWF maskFn q) →
    (∀ kv ∈ (ms.foldl (mipStep f) (accM, accAdd)).1,
      ∀ x ∈ kv.2, x.HashKey = kv.1) ∧
    (∀ kv ∈ (ms.foldl (mipStep f) (accM, accAdd)).1,
      kv.2.Pairwise NonEq) ∧
    (∀ kv ∈ (ms.foldl (mipStep f) (accM, accAdd)).1,
      ∀ x ∈ kv.2, PSWF maskFn x) ∧
    (((ms.foldl (mipStep f) (accM, accAdd)).1.map Prod.fst).Nodup) ∧
    (∀ q ∈ (ms.foldl (mipStep f) (accM, accAdd)).2,
      PSWF maskFn q) := by
  intro ms
  induction ms with
  | nil =>
    intro accM accAdd _ _ _ h4 h5 h6 h7 h8
    simp only [List.foldl_nil]
    exact ⟨h4, h5, h6, by simpa using h7.sublist (List.sublist_append_left _ _), h8⟩
  | cons kv ms' ih =>
    intro accM accAdd h1 h2 h3 h4 h5 h6 h7 h8
    simp only [List.foldl_cons]
    have hstepeq : mipStep f (accM, accAdd) kv =
        ((if (mipLoop f kv.2.length kv.2 0 []).1.isEmpty && !kv.2.isEmpty then accM
          else accM ++ [(kv.1, (mipLoop f kv.2.length kv.2 0 []).1)]),
         accAdd ++ (mipLoop f kv.2.length kv.2 0 []).2) := rfl
    rw [hstepeq]
    obtain ⟨ma, mb, mc⟩ := mipLoop_spec f kv.2.length kv.2 0 []
    have hsub : ∀ x ∈ (mipLoop f kv.2.length kv.2 0 []).1, x ∈ kv.2 := ma
    have hpwkv : (mipLoop f kv.2.length kv.2 0 []).1.Pairwise NonEq :=
      mb (h2 kv (by simp))
    have himg : ∀ q ∈ (mipLoop f kv.2.length kv.2 0 []).2, PSWF maskFn q := by
      intro q hq
      rcases mc q hq with h | ⟨p, hp, hfp⟩
      · cases h
      · rw [hfp]
        exact hf p (h3 kv (by simp) p hp)
    by_cases hkeep : (mipLoop f kv.2.length kv.2 0 []).1.isEmpty && !kv.2.isEmpty
    · rw [if_pos hkeep]
      refine ih accM (accAdd ++ (mipLoop f kv.2.length kv.2 0 []).2)
        (fun kv2 hkv2 => h1 kv2 (by simp [hkv2]))
        (fun kv2 hkv2 => h2 kv2 (by simp [hkv2]))
        (fun kv2 hkv2 => h3 kv2 (by simp [hkv2]))
        h4 h5 h6 ?_ ?_
      · refine List.Nodup.sublist ?_ h7
        refine List.Sublist.append_left ?_ _
        simp only [List.map_cons]
        exact List.sublist_cons_self _ _
      · intro q hq
        rcases List.mem_append.1 hq with h | h
        · exact h8 q h
        · exact himg q h
    · rw [if_neg hkeep]
      refine ih (accM ++ [(kv.1, (mipLoop f kv.2.length kv.2 0 []).1)])
        (accAdd ++ (mipLoop f kv.2.length kv.2 0 []).2)
        (fun kv2 hkv2 => h1 kv2 (by simp [hkv2]))
        (fun kv2 hkv2 => h2 kv2 (by simp [hkv2]))
        (fun kv2 hkv2 => h3 kv2 (by simp [hkv2]))
        ?_ ?_ ?_ ?_ ?_
      · intro kv2 hkv2 x hx
        rcases List.mem_append.1 hkv2 with h | h
        · exact h4 kv2 h x hx
        · rw [List.mem_singleton.1 h] at hx ⊢
          exact h1 kv (by simp) x (hsub x hx)
      · intro kv2 hkv2
        rcases List.mem_append.1 hkv2 with h | h
        · exact h5 kv2 h
        · rw [List.mem_singleton.1 h]
          exact hpwkv
      · intro kv2 hkv2 x hx
        rcases List.mem_append.1 hkv2 with h | h
        · exact h6 kv2 h x hx
        · rw [List.mem_singleton.1 h] at hx
          exact h3 kv (by simp) x (hsub x hx)
      · have : (accM ++ [(kv.1, (mipLoop f kv.2.length kv.2 0 []).1)]).map Prod.fst ++
            ms'.map Prod.fst = accM.map Prod.fst ++ (kv :: ms').map Prod.fst := by
          simp
        rw [this]
        exact h7
      · intro q hq
        rcases List.mem_append.1 hq with h | h
        · exact h8 q h
        · exact himg q h

theorem PathStateSet.MapInPlace_inv (maskFn : Nat → List Nat) (set : PathStateSet)
    (f : PathState → PathState) (hInv : set.Inv maskFn)
    (hf : ∀ q, PSWF maskFn q → PSWF maskFn (f q)) :
    (set.MapInPlace f).Inv maskFn := by
  obtain ⟨c1, c2, c3, c4, c5⟩ :=
    mipFold_spec maskFn f hf set.m [] []
      hInv.1 hInv.2.2.1 hInv.2.2.2
      (fun kv hkv => by cases hkv) (fun kv hkv => by cases hkv)
      (fun kv hkv => by cases hkv)
      (by simpa using hInv.2.1) (fun q hq => by cases hq)
  exact PathStateSet.foldl_Add_inv maskFn ((set.m.foldl (mipStep f) ([], [])).2)
    ⟨(set.m.foldl (mipStep f) ([], [])).1⟩ ⟨c1, c4, c2, c3⟩ c5

theorem PathStateSet.FlatMap_inv (maskFn : Nat → List Nat) (set : PathStateSet)
    (f : PathState → List PathState) (_hInv : set.Inv maskFn)
    (hf : ∀ q r, r ∈ f q → PSWF maskFn r) :
    (set.FlatMap f).Inv maskFn := by
  have hmid : ∀ (l : List PathState) (out : PathStateSet), out.Inv maskFn →
      (l.foldl (fun out2 ps => (f ps).foldl (fun o nps => o.Add nps) out2) out).Inv maskFn := by
    intro l
    induction l with
    | nil => exact fun out h => h
    | cons p rest ih =>
      intro out h
      simp only [List.foldl_cons]
      exact ih _ (PathStateSet.foldl_Add_inv maskFn (f p) out h (fun r hr => hf p r hr))
  have houter : ∀ (ms : List (PathStateKey × List PathState)) (out : PathStateSet),
      out.Inv maskFn →
      (ms.foldl (fun out kv => kv.2.foldl
        (fun out2 ps => (f ps).foldl (fun o nps => o.Add nps) out2) out) out).Inv maskFn := by
    intro ms
    induction ms with
    | nil => exact fun out h => h
    | cons kv rest ih =>
      intro out h
      simp only [List.foldl_cons]
      exact ih _ (hmid kv.2 out h)
  exact houter set.m ⟨[]⟩ (PathStateSet.Inv_empty maskFn)

theorem entriesList_pairwise (m : List (PathStateKey × List PathState))
    (h1 : ∀ kv ∈ m, ∀ ps ∈ kv.2, ps.HashKey = kv.1)
    (h2 : (m.map Prod.fst).Nodup)
    (h3 : ∀ kv ∈ m, kv.2.Pairwise NonEq) :
    (m.foldr (fun kv acc => kv.2 ++ acc) []).Pairwise NonEq := by
  induction m with
  | nil => exact List.Pairwise.nil
  | cons kv rest ih =>
    simp only [List.foldr_cons]
    rw [List.pairwise_append]
    simp only [List.map_cons, List.nodup_cons] at h2
    refine ⟨h3 kv (by simp), ?_, ?_⟩
    · exact ih (fun kv2 hkv2 => h1 kv2 (by simp [hkv2])) h2.2
        (fun kv2 hkv2 => h3 kv2 (by simp [hkv2]))
    · intro a ha b hb
      have hbmem : ∃ kv2 ∈ rest, b ∈ kv2.2 :=
        (PathStateSet.mem_entries ⟨rest⟩ b).1 hb
      obtain ⟨kv2, hkv2, hbkv2⟩ := hbmem
      have hka : a.HashKey = kv.1 := h1 kv (by simp) a ha
      have hkb : b.HashKey = kv2.1 := h1 kv2 (by simp [hkv2]) b hbkv2
      have hkne : kv.1 ≠ kv2.1 := by
        intro hc
        apply h2.1
        rw [hc]
        exact List.mem_map.2 ⟨kv2, hkv2, rfl⟩
      constructor
      · rcases Bool.eq_false_or_eq_true (a.Equal b) with h | h
        · exact absurd ((hka ▸ hkb ▸ PathState.Equal_hashKey a b h : kv.1 = kv2.1)) hkne
        · exact h
      · rcases Bool.eq_false_or_eq_true (b.Equal a) with h | h
        · exact absurd ((hka ▸ hkb ▸ PathState.Equal_hashKey b a h : kv2.1 = kv.1)).symm hkne
        · exact h

/-- Under the invariant, the full store of a PathStateSet holds no two
(Equal-in-either-direction) states. -/
theorem PathStateSet.Inv_entries_pairwise (maskFn : Nat → List Nat) (set : PathStateSet)
    (hInv : set.Inv maskFn) : set.entries.Pairwise NonEq :=
  entriesList_pairwise set.m hInv.1 hInv.2.1 hInv.2.2.1

theorem entriesFilter_empty (m : List (PathStateKey × List PathState)) (key : PathStateKey)
    (hkeyed : ∀ kv ∈ m, ∀ ps ∈ kv.2, ps.HashKey = kv.1)
    (hno : key ∉ m.map Prod.fst) :
    (m.foldr (fun kv acc => kv.2 ++ acc) []).filter
      (fun e => decide (e.HashKey = key)) = [] := by
  induction m with
  | nil => simp
  | cons kv rest ih =>
    simp only [List.foldr_cons, List.filter_append]
    simp only [List.map_cons, List.mem_cons, not_or] at hno
    rw [ih (fun kv2 hkv2 => hkeyed kv2 (by simp [hkv2])) hno.2, List.append_nil]
    rw [List.filter_eq_nil_iff]
    intro e he
    have := hkeyed kv (by simp) e he
    simp only [decide_eq_true_eq]
    rw [this]
    exact fun hc => hno.1 hc.symm

theorem entriesList_count (m : List (PathStateKey × List PathState)) (key : PathStateKey)
    (h1 : ∀ kv ∈ m, ∀ ps ∈ kv.2, ps.HashKey = kv.1)
    (h2 : (m.map Prod.fst).Nodup) :
    ((bucketFind m key).getD []).length =
      ((m.foldr (fun kv acc => kv.2 ++ acc) []).filter
        (fun e => decide (e.HashKey = key))).length := by
  induction m with
  | nil => simp [bucketFind]
  | cons kv rest ih =>
    simp only [List.foldr_cons, List.filter_append, List.length_append]
    simp only [List.map_cons, List.nodup_cons] at h2
    by_cases hk : kv.1 = key
    · have hfull : kv.2.filter (fun e => decide (e.HashKey = key)) = kv.2 := by
        rw [List.filter_eq_self]
        intro e he
        simp only [decide_eq_true_eq]
        rw [h1 kv (by simp) e he, hk]
      have hrest : (rest.foldr (fun kv acc => kv.2 ++ acc) []).filter
          (fun e => decide (e.HashKey = key)) = [] := by
        refine entriesFilter_empty rest key
          (fun kv2 hkv2 => h1 kv2 (by simp [hkv2])) ?_
        rw [← hk]
        exact h2.1
      have hfind : bucketFind (kv :: rest) key = some kv.2 := by
        rw [show kv :: rest = (kv.1, kv.2) :: rest from by simp, bucketFind, if_pos hk]
      rw [hfind, hfull, hrest]
      simp
    · have hempty : kv.2.filter (fun e => decide (e.HashKey = key)) = [] := by
        rw [List.filter_eq_nil_iff]
        intro e he
        simp only [decide_eq_true_eq]
        rw [h1 kv (by simp) e he]
        exact hk
      have hfind : bucketFind (kv :: rest) key = bucketFind rest key := by
        rw [show kv :: rest = (kv.1, kv.2) :: rest from by simp, bucketFind, if_neg hk]
      rw [hfind, hempty]
      simp only [List.length_nil, Nat.zero_add]
      exact ih (fun kv2 hkv2 => h1 kv2 (by simp [hkv2])) h2.2

/-- Under the invariant, the `similar` count returned by Contains is the
number of stored states sharing the query's hash key. -/
theorem PathStateSet.Contains_count (maskFn : Nat → List Nat) (set : PathStateSet)
    (hInv : set.Inv maskFn) (ps : PathState) :
    (set.Contains ps).2 =
      (set.entries.filter (fun e => decide (e.HashKey = ps.HashKey))).length :=
  entriesList_count set.m ps.HashKey hInv.1 hInv.2.1

instance (maskFn : Nat → List Nat) (ps : PathState) : Decidable (PSWF maskFn ps) := by
  unfold PSWF
  infer_instance

instance (a b : PathState) : Decidable (NonEq a b) := by
  unfold NonEq
  infer_instance

instance (maskFn : Nat → List Nat) (set : PathStateSet) : Decidable (set.Inv maskFn) := by
  unfold PathStateSet.Inv
  infer_instance

/-- C10: PathStateSet maintains set semantics under PathState.Equal: adding
a state Equal to a stored one leaves the set unchanged; the representation
invariant (whose third conjunct says no bucket holds two Equal states, and
which by `Inv_entries_pairwise` means the whole set never holds two Equal
states) holds for the empty set and is preserved by Add, MapInPlace and
FlatMap; and the `similar` count returned by Contains is the number of
stored states sharing the query's hash key — states that are pairwise
non-Equal by the invariant. `maskFn` fixes each block's liveness mask
(PathState.Equal's note: same block implies same mask), and PSWF states
that a stored PathState's lockset is a well-formed Go map satisfying the
bits/stacks invariant. -/
theorem pathStateSet_set_semantics (maskFn : Nat → List Nat) :
    ((⟨[]⟩ : PathStateSet).Inv maskFn) ∧
    (∀ (set : PathStateSet) (ps e : PathState), set.Inv maskFn →
      e ∈ set.entries → e.Equal ps = true → set.Add ps = set) ∧
    (∀ (set : PathStateSet) (ps : PathState), set.Inv maskFn → PSWF maskFn ps →
      (set.Add ps).Inv maskFn) ∧
    (∀ (set : PathStateSet) (f : PathState → PathState), set.Inv maskFn →
      (∀ q, PSWF maskFn q → PSWF maskFn (f q)) → (set.MapInPlace f).Inv maskFn) ∧
    (∀ (set : PathStateSet) (f : PathState → List PathState), set.Inv maskFn →
      (∀ q r, r ∈ f q → PSWF maskFn r) → (set.FlatMap f).Inv maskFn) ∧
    (∀ set : PathStateSet, set.Inv maskFn → set.entries.Pairwise NonEq) ∧
    (∀ (set : PathStateSet) (ps : PathState), set.Inv maskFn →
      (set.Contains ps).2 =
        (set.entries.filter (fun e => decide (e.HashKey = ps.HashKey))).length) :=
  ⟨PathStateSet.Inv_empty maskFn,
   fun set ps e hInv he heq => PathStateSet.Add_of_mem_equal maskFn set ps e hInv he heq,
   fun set ps hInv hps => PathStateSet.Add_inv maskFn set ps hInv hps,
   fun set f hInv hf => PathStateSet.MapInPlace_inv maskFn set f hInv hf,
   fun set f hInv hf => PathStateSet.FlatMap_inv maskFn set f hInv hf,
   fun set hInv => PathStateSet.Inv_entries_pairwise maskFn set hInv,
   fun set ps hInv => PathStateSet.Contains_count maskFn set hInv ps⟩

/-- Concrete states for the C10 witness (same hash key, non-Equal). -/
def c10Ps1 : PathState := ⟨3, ⟨0, {1}, [(1, some 4)]⟩, ⟨[], []⟩, []⟩

/-- Second concrete state for the C10 witness. -/
def c10Ps2 : PathState := ⟨3, ⟨0, {1}, [(1, some 6)]⟩, ⟨[], []⟩, []⟩

/-- Witness for C10: the theorem applied at a concrete mask table, set and
states, with every hypothesis discharged by evaluation. -/
theorem pathStateSet_set_semantics_witness :
    ((NewPathStateSet.Add c10Ps1).Add c10Ps1 = NewPathStateSet.Add c10Ps1) ∧
    (((NewPathStateSet.Add c10Ps1).Add c10Ps2).Inv (fun _ => [])) ∧
    (((NewPathStateSet.Add c10Ps1).Add c10Ps2).Contains c10Ps1).2 =
      ((((NewPathStateSet.Add c10Ps1).Add c10Ps2).entries.filter
        (fun e => decide (e.HashKey = c10Ps1.HashKey))).length) :=
  ⟨(pathStateSet_set_semantics (fun _ => [])).2.1 (NewPathStateSet.Add c10Ps1) c10Ps1 c10Ps1
      (by decide) (by decide) (by decide),
   (pathStateSet_set_semantics (fun _ => [])).2.2.1 (NewPathStateSet.Add c10Ps1) c10Ps2
      (by decide) (by decide),
   (pathStateSet_set_semantics (fun _ => [])).2.2.2.2.2.2
      ((NewPathStateSet.Add c10Ps1).Add c10Ps2) c10Ps1 (by decide)⟩

/-- The three ways the walkBlock entry guard (main.go:1508-1522) can leave:
a cached exact hit, the too-many-states trim warning, or proceeding (after
adding the entry state to the visited cache). -/
inductive GuardResult where
  | cachedReturn
  | trim
  | proceed
deriving DecidableEq

/-- The mask installation on block entry (main.go:1497:
`enterPathState.mask = s.fns[f].ifDeps[b.Index]`). -/
def guardEnter (ifDeps : List (List Nat)) (ps0 : PathState) : PathState :=
  { ps0 with mask := ifDeps.getD ps0.block [] }

/-- The entry guard of state.walkBlock (main.go:1488-1522): install the
block's liveness mask, then probe the per-function visited cache: an exact
hit returns (cached), more than 10 hash-similar states returns with the
trim warning, and otherwise the entry state is added and the walk
proceeds. -/
def walkBlockGuard (ifDeps : List (List Nat)) (blockCache : PathStateSet)
    (ps0 : PathState) : GuardResult × PathStateSet :=
  let enterPathState := guardEnter ifDeps ps0
  let c := blockCache.Contains enterPathState
  if c.1 then (GuardResult.cachedReturn, blockCache)
  else if c.2 > 10 then (GuardResult.trim, blockCache)
  else (GuardResult.proceed, blockCache.Add enterPathState)

/-- The i-th entry state of the C4 failing run: same block and (empty)
lockset — hence one shared hash bucket — differing only in the masked
binding of SSA value 5. -/
def c4State (i : Nat) : PathState :=
  ⟨0, ⟨0, ∅, []⟩, ⟨[(5, DynValue.const (ConstVal.int i))], []⟩, []⟩

/-- The visited cache after the guard has admitted the first n states. -/
def c4Cache (n : Nat) : PathStateSet :=
  ((List.range n).map c4State).foldl
    (fun cache ps => (walkBlockGuard [[5]] cache ps).2) NewPathStateSet

/-- C4 counterexample: with ten hash-similar states already cached the
claim says the eleventh would make the bucket exceed 10, so walkBlock must
warn and refuse it — but `similar > 10` (main.go:1515) is false at 10, the
guard proceeds, and the bucket reaches 11 states. -/
theorem blockCache_bucket_reaches_eleven :
    (((c4Cache 10).bucket (0, ∅)).length = 10) ∧
    ((walkBlockGuard [[5]] (c4Cache 10) (c4State 10)).1 = GuardResult.proceed) ∧
    ((((walkBlockGuard [[5]] (c4Cache 10) (c4State 10)).2).bucket (0, ∅)).length = 11) := by
  decide

theorem bucketFind_bucketSet {α : Type} (m : List (PathStateKey × α)) (k : PathStateKey)
    (v : α) (key : PathStateKey) :
    bucketFind (bucketSet m k v) key = if k = key then some v else bucketFind m key := by
  induction m with
  | nil => by_cases h : k = key <;> simp [bucketSet, bucketFind, h]
  | cons a rest ih =>
    obtain ⟨k1, v1⟩ := a
    by_cases h1 : k1 = k <;> by_cases h2 : k1 = key <;> by_cases h3 : k = key <;>
      simp_all [bucketSet, bucketFind]

/-- C4 (amended): the guard aborts with the trim warning exactly when the
bucket already holds more than 10 hash-similar states (not when it is
about to exceed 10); it adds the entry state when the count is at most 10;
consequently bucket sizes are bounded by 11, not 10. -/
theorem explosion_guard_amended (ifDeps : List (List Nat)) (cache : PathStateSet)
    (ps : PathState) :
    ((cache.Contains (guardEnter ifDeps ps)).1 = false →
      (cache.Contains (guardEnter ifDeps ps)).2 > 10 →
      walkBlockGuard ifDeps cache ps = (GuardResult.trim, cache)) ∧
    ((cache.Contains (guardEnter ifDeps ps)).1 = false →
      ¬(cache.Contains (guardEnter ifDeps ps)).2 > 10 →
      walkBlockGuard ifDeps cache ps =
        (GuardResult.proceed, cache.Add (guardEnter ifDeps ps))) ∧
    (∀ key, ((cache.bucket key).length ≤ 11) →
      (((walkBlockGuard ifDeps cache ps).2).bucket key).length ≤ 11) := by
  refine ⟨?_, ?_, ?_⟩
  · intro h1 h2
    unfold walkBlockGuard
    simp only [h1, Bool.false_eq_true, if_false, if_pos h2]
  · intro h1 h2
    unfold walkBlockGuard
    simp only [h1, Bool.false_eq_true, if_false, if_neg h2]
  · intro key hkey
    unfold walkBlockGuard
    by_cases h1 : (cache.Contains (guardEnter ifDeps ps)).1 = true
    · simpa [h1] using hkey
    · rw [Bool.not_eq_true] at h1
      by_cases h2 : (cache.Contains (guardEnter ifDeps ps)).2 > 10
      · simpa [h1, h2] using hkey
      · simp only [h1, Bool.false_eq_true, if_false, if_neg h2]
        unfold PathStateSet.Add
        by_cases hany : ((cache.bucket (guardEnter ifDeps ps).HashKey).any
            (fun e => e.Equal (guardEnter ifDeps ps))) = true
        · simpa [hany] using hkey
        · simp only [hany, Bool.false_eq_true, if_false]
          show (((⟨bucketSet cache.m (guardEnter ifDeps ps).HashKey
              (cache.bucket (guardEnter ifDeps ps).HashKey ++ [guardEnter ifDeps ps])⟩ :
                PathStateSet)).bucket key).length ≤ 11
          have hb : ∀ B : List PathState,
              ((⟨bucketSet cache.m (guardEnter ifDeps ps).HashKey B⟩ :
                PathStateSet)).bucket key =
              if (guardEnter ifDeps ps).HashKey = key then B else cache.bucket key := by
            intro B
            unfold PathStateSet.bucket
            rw [bucketFind_bucketSet]
            by_cases hk : (guardEnter ifDeps ps).HashKey = key
            · simp [hk]
            · simp [hk]
          rw [hb]
          by_cases hk : (guardEnter ifDeps ps).HashKey = key
          · rw [if_pos hk]
            have h2len : (cache.bucket (guardEnter ifDeps ps).HashKey).length ≤ 10 := by
              have hc2 : (cache.Contains (guardEnter ifDeps ps)).2 =
                  (cache.bucket (guardEnter ifDeps ps).HashKey).length := rfl
              omega
            simp only [List.length_append, List.length_singleton]
            omega
          · rw [if_neg hk]
            exact hkey

/-- Witness for the amended C4 theorem: at a cache whose bucket already
holds 11 hash-similar states, the guard trims without adding; and the
11-bound is preserved there. -/
theorem explosion_guard_amended_witness :
    (walkBlockGuard [[5]] (c4Cache 11) (c4State 11) = (GuardResult.trim, c4Cache 11)) ∧
    ((((walkBlockGuard [[5]] (c4Cache 11) (c4State 11)).2).bucket (0, ∅)).length ≤ 11) :=
  ⟨(explosion_guard_amended [[5]] (c4Cache 11) (c4State 11)).1 (by decide) (by decide),
   (explosion_guard_amended [[5]] (c4Cache 11) (c4State 11)).2.2 (0, ∅) (by decide)⟩

/-- A basic block as walkBlock's successor-processing code needs it: its
index, successor block indexes (for an If-terminated block `[true-succ,
false-succ]`), predecessor indexes, and the leading Phi instructions, each
as (phi value id, edge value ids parallel to preds). -/
structure BasicBlock where
  index : Nat
  succs : List Nat
  preds : List Nat
  phis : List (Nat × List Nat)
deriving DecidableEq

/-- One edge of the phi-propagation loop (main.go:1719-1726): if the
edge's predecessor is the current block and the incoming value is bound,
bind the phi to that value. -/
def phiStep (bIdx : Nat) (phiVal : Nat) (acc2 : PathState) (ev : Nat × Nat) : PathState :=
  if ev.2 = bIdx then
    match acc2.vs.Get ev.1 with
    | some x => { acc2 with vs := acc2.vs.Extend phiVal x }
    | none => acc2
  else acc2

/-- The phi-propagation loop at the head of a successor block
(main.go:1714-1727): for each leading phi of b2, walk its edges. The zip
models Go's parallel indexing of `instr.Edges` and `b2.Preds`. -/
def phiProp (bIdx : Nat) (b2 : BasicBlock) (ps2 : PathState) : PathState :=
  b2.phis.foldl (fun acc phi => (phi.2.zip b2.preds).foldl (phiStep bIdx phi.1) acc) ps2

/-- One iteration of walkBlock's successor loop (main.go:1701-1727) for the
successor at index i of the (possibly pruned) successor list: set the
block, bind the If condition to the constant MakeBool(i == 0) if there is
one (main.go:1709), then propagate values over the successor's phis. -/
def succState (getBlock : Nat → BasicBlock) (b : BasicBlock) (ifCond : Option Nat)
    (ps : PathState) (i : Nat) (b2idx : Nat) : PathState :=
  let ps2a := { ps with block := b2idx }
  let ps2b := match ifCond with
    | some c => { ps2a with vs := ps2a.vs.Extend c (DynValue.const (ConstVal.bool (i = 0))) }
    | none => ps2a
  phiProp b.index (getBlock b2idx) ps2b

/-- The successor-processing tail of state.walkBlock (main.go:1682-1738)
for a single path state: if the block ends in an If whose condition
resolves in the value state, prune the successor list to the taken edge
(`succs[:1]` for true, `succs[1:]` for false — Go slicing panics on an
empty successor list, and the `x.(DynConst)` assertion or
`constant.BoolVal` panics on a non-boolean resolution: both are modelled
as none); then build the ps2 walkBlock recurses into for each remaining
successor. -/
def processSuccs (getBlock : Nat → BasicBlock) (b : BasicBlock) (ifCond : Option Nat)
    (ps : PathState) : Option (List PathState) :=
  match ifCond with
  | none => some (b.succs.enum.map (fun iv => succState getBlock b ifCond ps iv.1 iv.2))
  | some c =>
    match ps.vs.Get c with
    | none => some (b.succs.enum.map (fun iv => succState getBlock b (some c) ps iv.1 iv.2))
    | some (DynValue.const (ConstVal.bool bv)) =>
      if b.succs.length < 1 then none
      else
        let succs := if bv then b.succs.take 1 else b.succs.drop 1
        some (succs.enum.map (fun iv => succState getBlock b (some c) ps iv.1 iv.2))
    | some _ => none

theorem phiStep_block (bIdx phiVal : Nat) (acc : PathState) (ev : Nat × Nat) :
    (phiStep bIdx phiVal acc ev).block = acc.block := by
  unfold phiStep
  by_cases h : ev.2 = bIdx
  · simp only [if_pos h]
    cases acc.vs.Get ev.1 <;> rfl
  · simp [h]

theorem foldl_phiStep_block (bIdx phiVal : Nat) :
    ∀ (evs : List (Nat × Nat)) (acc : PathState),
    (evs.foldl (phiStep bIdx phiVal) acc).block = acc.block := by
  intro evs
  induction evs with
  | nil => intro acc; rfl
  | cons ev rest ih =>
    intro acc
    simp only [List.foldl_cons]
    rw [ih, phiStep_block]

theorem phiProp_block (bIdx : Nat) (b2 : BasicBlock) (ps2 : PathState) :
    (phiProp bIdx b2 ps2).block = ps2.block := by
  unfold phiProp
  induction b2.phis generalizing ps2 with
  | nil => rfl
  | cons phi rest ih =>
    simp only [List.foldl_cons]
    rw [ih, foldl_phiStep_block]

theorem succState_block (getBlock : Nat → BasicBlock) (b : BasicBlock)
    (ifCond : Option Nat) (ps : PathState) (i b2idx : Nat) :
    (succState getBlock b ifCond ps i b2idx).block = b2idx := by
  unfold succState
  cases ifCond <;> rw [phiProp_block]

/-- The three-block CFG of the C2 failing input: block 0 ends in an If with
successors [1, 2] (true edge to 1, false edge to 2). -/
def c2Blocks : Nat → BasicBlock := fun n =>
  if n = 1 then ⟨1, [], [0], []⟩
  else if n = 2 then ⟨2, [], [0], []⟩
  else ⟨0, [1, 2], [], []⟩

/-- The C2 failing path state: the If condition (SSA value 7) is bound to
the boolean constant false. -/
def c2Ps : PathState := ⟨0, ⟨0, ∅, []⟩, ⟨[(7, DynValue.const (ConstVal.bool false))], []⟩, []⟩

/-- C2: the claim fails on the code. With the condition known false,
walkBlock prunes to `succs[1:]` (the false successor, block 2), but the
refinement `Extend(ifCond, DynConst{constant.MakeBool(i == 0)})`
(main.go:1709) indexes the pruned list, so i = 0 and the condition is
re-bound to TRUE on the false edge — the constructed ps2 enters the second
successor with the condition bound to the wrong constant, overwriting the
known false value that justified the pruning. -/
theorem walkBlock_false_edge_binds_true :
    (c2Ps.vs.Get 7 = some (DynValue.const (ConstVal.bool false))) ∧
    ((c2Blocks 0).succs = [1, 2]) ∧
    (processSuccs c2Blocks (c2Blocks 0) (some 7) c2Ps =
      some [⟨2, ⟨0, ∅, []⟩, ⟨[(7, DynValue.const (ConstVal.bool true))], []⟩, []⟩]) := by
  decide

/-- C9: if the If condition resolves in the current value state to a known
boolean constant, walkBlock explores exactly one successor: the first
successor when true, the second when false; the other successor is never
recursed into. -/
theorem walkBlock_prunes_known_condition (getBlock : Nat → BasicBlock) (b : BasicBlock)
    (c : Nat) (ps : PathState) (t f : Nat) (bv : Bool)
    (hsucc : b.succs = [t, f])
    (hres : ps.vs.Get c = some (DynValue.const (ConstVal.bool bv))) :
    ∃ l, processSuccs getBlock b (some c) ps = some l ∧
      l.map (fun ps2 => ps2.block) = [if bv then t else f] := by
  simp only [processSuccs]
  rw [hres, hsucc]
  cases bv
  · refine ⟨_, rfl, ?_⟩
    simp [List.enum, succState_block]
  · refine ⟨_, rfl, ?_⟩
    simp [List.enum, succState_block]

/-- Witness for C9 at a concrete CFG, condition and path state (condition
known true: only the first successor, block 1, is explored). -/
theorem walkBlock_prunes_known_condition_witness :
    ∃ l, processSuccs c2Blocks (c2Blocks 0) (some 7)
        ⟨0, ⟨0, ∅, []⟩, ⟨[(7, DynValue.const (ConstVal.bool true))], []⟩, []⟩ = some l ∧
      l.map (fun ps2 => ps2.block) = [if true then 1 else 2] :=
  walkBlock_prunes_known_condition c2Blocks (c2Blocks 0) 7
    ⟨0, ⟨0, ∅, []⟩, ⟨[(7, DynValue.const (ConstVal.bool true))], []⟩, []⟩ 1 2 true
    (by decide) (by decide)

section WalkFunctionModel

variable {F : Type} {L : Type} [DecidableEq F]

/-- What state.walkFunction (main.go:1198-1321) consumes around its
memoization protocol, abstracted: `hasBody f` is `f.Blocks != nil`
(main.go:1256: a body-less external function returns a fresh
{ps.lockSet} without consulting the cache), `extResult` builds that
singleton exit set from the entry state, `calls f ps` is the sequence of
recursive walkFunction invocations the body walk performs from entry ps
(the effect of walkBlock's doCall chain, universally quantified here),
`exits f ps rs` is how the body walk combines the callees' results into
the accumulated exitLockSets, `emptyLSS` the empty LockSetSet placeholder
(`&LockSetSet{}`, main.go:1309), and L the stored result type (the source
stores `interface{}` in the PathStateMap). -/
structure WalkEnv (F : Type) (L : Type) where
  hasBody : F → Bool
  extResult : PathState → L
  calls : F → PathState → List (F × PathState)
  exits : F → PathState → List L → L
  emptyLSS : L

/-- The per-function memoization caches `s.fns[f].exitLockSets`
(main.go:1005), as a function from functions to their PathStateMaps. -/
def updCache (cache : F → PathStateMap L) (f : F) (v : PathStateMap L) :
    F → PathStateMap L :=
  fun g => if g = f then v else cache g

mutual
/-- state.walkFunction (main.go:1198-1321), memoization protocol: an
external (body-less) function returns the singleton exit set at once; a
cached Equal entry state returns the stored LockSetSet (main.go:1289);
otherwise an empty placeholder is stored at ps (main.go:1309), the body's
recursive calls are walked in order threading the caches, the combined
exit set is stored at ps (main.go:1315) and returned. `fuel` bounds the
recursion depth (the theorems below show any fuel above the number of
not-yet-memoized reachable entries suffices); none models exhaustion. -/
def walkFunction (env : WalkEnv F L) : Nat → (F → PathStateMap L) → F → PathState →
    Option ((F → PathStateMap L) × L)
  | 0, _, _, _ => none
  | fuel + 1, cache, f, ps =>
    if env.hasBody f = false then some (cache, env.extResult ps)
    else
      match (cache f).Get ps with
      | some l => some (cache, l)
      | none =>
        let cache1 := updCache cache f ((cache f).Set ps env.emptyLSS)
        match walkCalls env fuel cache1 (env.calls f ps) with
        | none => none
        | some (cache2, rs) =>
          some (updCache cache2 f ((cache2 f).Set ps (env.exits f ps rs)),
            env.exits f ps rs)
termination_by fuel _ _ _ => (fuel, 0)

/-- The body walk's sequence of recursive walkFunction calls (the doCall
loop of walkBlock), threading the caches left to right. -/
def walkCalls (env : WalkEnv F L) : Nat → (F → PathStateMap L) →
    List (F × PathState) → Option ((F → PathStateMap L) × List L)
  | _, cache, [] => some (cache, [])
  | fuel, cache, fq :: rest =>
    match walkFunction env fuel cache fq.1 fq.2 with
    | none => none
    | some (c2, r) =>
      match walkCalls env fuel c2 rest with
      | none => none
      | some (c3, rs) => some (c3, r :: rs)
termination_by fuel _ l => (fuel, l.length + 1)
end

end WalkFunctionModel

theorem walkFunction_zero {F L : Type} [DecidableEq F] (env : WalkEnv F L)
    (cache : F → PathStateMap L) (f : F) (ps : PathState) :
    walkFunction env 0 cache f ps = none := by
  rw [walkFunction]

theorem walkFunction_succ {F L : Type} [DecidableEq F] (env : WalkEnv F L)
    (fuel : Nat) (cache : F → PathStateMap L) (f : F) (ps : PathState) :
    walkFunction env (fuel + 1) cache f ps =
      (if env.hasBody f = false then some (cache, env.extResult ps)
      else
        match (cache f).Get ps with
        | some l => some (cache, l)
        | none =>
          let cache1 := updCache cache f ((cache f).Set ps env.emptyLSS)
          match walkCalls env fuel cache1 (env.calls f ps) with
          | none => none
          | some (cache2, rs) =>
            some (updCache cache2 f ((cache2 f).Set ps (env.exits f ps rs)),
              env.exits f ps rs)) := by
  rw [walkFunction]

theorem walkCalls_nil {F L : Type} [DecidableEq F] (env : WalkEnv F L)
    (fuel : Nat) (cache : F → PathStateMap L) :
    walkCalls env fuel cache [] = some (cache, []) := by
  rw [walkCalls]

theorem walkCalls_cons {F L : Type} [DecidableEq F] (env : WalkEnv F L)
    (fuel : Nat) (cache : F → PathStateMap L) (fq : F × PathState)
    (rest : List (F × PathState)) :
    walkCalls env fuel cache (fq :: rest) =
      (match walkFunction env fuel cache fq.1 fq.2 with
      | none => none
      | some (c2, r) =>
        match walkCalls env fuel c2 rest with
        | none => none
        | some (c3, rs) => some (c3, r :: rs)) := by
  rw [walkCalls]

theorem psmSetEntry_of_get_none {L : Type} (l : List (PathState × L)) (ps : PathState)
    (v : L) (h : psmGetEntry l ps = none) : psmSetEntry l ps v = l ++ [(ps, v)] := by
  induction l with
  | nil => rfl
  | cons e rest ih =>
    obtain ⟨q, w⟩ := e
    by_cases hq : q.Equal ps = true
    · rw [psmGetEntry, if_pos hq] at h
      cases h
    · rw [psmGetEntry, if_neg hq] at h
      rw [psmSetEntry, if_neg hq, ih h]
      rfl

theorem psmGetEntry_append {L : Type} (l1 l2 : List (PathState × L)) (ps : PathState) :
    psmGetEntry (l1 ++ l2) ps =
      (match psmGetEntry l1 ps with
      | some v => some v
      | none => psmGetEntry l2 ps) := by
  induction l1 with
  | nil => rfl
  | cons e rest ih =>
    obtain ⟨q, w⟩ := e
    by_cases hq : q.Equal ps = true
    · simp [psmGetEntry, hq]
    · simp only [List.cons_append, psmGetEntry, if_neg hq]
      exact ih

/-- Get after Set at an Equal state (the memoization hit after the
placeholder insertion): if neither state was previously cached, the probe
finds the freshly stored entry. -/
theorem PathStateMap.Get_Set_of_equal {L : Type} (psm : PathStateMap L)
    (ps ps2 : PathState) (v : L) (h1 : psm.Get ps = none) (h2 : psm.Get ps2 = none)
    (heq : ps.Equal ps2 = true) : (psm.Set ps v).Get ps2 = some v := by
  have hK : ps.HashKey = ps2.HashKey := PathState.Equal_hashKey ps ps2 heq
  unfold PathStateMap.Get at h1 h2 ⊢
  unfold PathStateMap.Set
  simp only
  rw [bucketFind_bucketSet, if_pos hK]
  rw [psmSetEntry_of_get_none _ _ _ h1]
  simp only [Option.getD_some]
  rw [psmGetEntry_append]
  rw [← hK] at h2
  rw [h2]
  simp [psmGetEntry, heq]

theorem psmGetEntry_setEntry_isSome {L : Type} (l : List (PathState × L))
    (ps q : PathState) (v : L) (h : (psmGetEntry l q).isSome) :
    (psmGetEntry (psmSetEntry l ps v) q).isSome := by
  induction l with
  | nil => simp [psmGetEntry] at h
  | cons e rest ih =>
    obtain ⟨p1, w⟩ := e
    by_cases hp : p1.Equal ps = true
    · rw [psmSetEntry, if_pos hp]
      by_cases hq : p1.Equal q = true
      · simp [psmGetEntry, hq]
      · rw [psmGetEntry, if_neg hq] at h ⊢
        exact h
    · rw [psmSetEntry, if_neg hp]
      by_cases hq : p1.Equal q = true
      · simp [psmGetEntry, hq]
      · rw [psmGetEntry, if_neg hq] at h ⊢
        exact ih h

/-- Set never evicts: any state Get could find before, it still finds. -/
theorem PathStateMap.Get_Set_isSome {L : Type} (psm : PathStateMap L)
    (ps q : PathState) (v : L) (h : (psm.Get q).isSome) :
    ((psm.Set ps v).Get q).isSome := by
  unfold PathStateMap.Get at h ⊢
  unfold PathStateMap.Set
  simp only
  rw [bucketFind_bucketSet]
  by_cases hK : ps.HashKey = q.HashKey
  · rw [if_pos hK]
    simp only [Option.getD_some]
    refine psmGetEntry_setEntry_isSome _ _ _ _ ?_
    rw [← hK] at h
    exact h
  · rw [if_neg hK]
    exact h

/-- Get after Set at the state itself (needs Equal reflexivity, i.e. a
well-formed Go lockset map). -/
theorem PathStateMap.Get_Set_self {L : Type} (psm : PathStateMap L) (ps : PathState)
    (v : L) (h1 : psm.Get ps = none) (hn : nodupKeys ps.lockSet.stackMap = true) :
    (psm.Set ps v).Get ps = some v :=
  PathStateMap.Get_Set_of_equal psm ps ps v h1 h1 (PathState.equalRefl ps hn)

theorem updCache_Get_isSome {F L : Type} [DecidableEq F] (cache : F → PathStateMap L)
    (f : F) (v : PathStateMap L) (g : F) (q : PathState)
    (hv : ∀ q2, ((cache f).Get q2).isSome → (v.Get q2).isSome)
    (h : ((cache g).Get q).isSome) : (((updCache cache f v) g).Get q).isSome := by
  unfold updCache
  by_cases hg : g = f
  · subst hg
    simp only [if_pos rfl]
    exact hv q h
  · rw [if_neg hg]
    exact h

/-- The number of (function, entry state) pairs of a domain list whose
result is not yet memoized. -/
def countMissing {F L : Type} (cache : F → PathStateMap L)
    (D : List (F × PathState)) : Nat :=
  (D.filter (fun fp => ((cache fp.1).Get fp.2).isNone)).length

theorem filter_length_mono {α : Type} (D : List α) (p q : α → Bool)
    (h : ∀ x ∈ D, q x = true → p x = true) :
    (D.filter q).length ≤ (D.filter p).length := by
  induction D with
  | nil => exact Nat.le_refl 0
  | cons a rest ih =>
    have hrest := ih (fun x hx => h x (by simp [hx]))
    by_cases hq : q a = true
    · have hp := h a (by simp) hq
      simp only [List.filter_cons, hq, hp, if_true]
      simpa using hrest
    · simp only [List.filter_cons, hq]
      by_cases hp : p a = true <;> simp [hp] <;> omega

theorem filter_length_strict {α : Type} (D : List α) (p q : α → Bool)
    (h : ∀ x ∈ D, q x = true → p x = true) (x0 : α) (hx0 : x0 ∈ D)
    (hp0 : p x0 = true) (hq0 : q x0 = false) :
    (D.filter q).length < (D.filter p).length := by
  induction D with
  | nil => cases hx0
  | cons a rest ih =>
    have hmono := filter_length_mono rest p q (fun x hx => h x (by simp [hx]))
    rcases List.mem_cons.1 hx0 with h0 | h0
    · subst h0
      simp only [List.filter_cons, hp0, hq0, if_true]
      simp only [Bool.false_eq_true, if_false, List.length_cons]
      omega
    · have hih := ih (fun x hx => h x (by simp [hx])) h0
      by_cases hq : q a = true
      · have hp := h a (by simp) hq
        simp only [List.filter_cons, hq, hp, if_true, List.length_cons]
        omega
      · simp only [List.filter_cons, hq, Bool.false_eq_true, if_false]
        by_cases hp : p a = true
        · simp only [hp, if_true, List.length_cons]
          omega
        · simp only [hp, Bool.false_eq_true, if_false]
          exact hih

/-- Caches only gain memoized entries through the walk (never lose them). -/
theorem walk_mono {F L : Type} [DecidableEq F] (env : WalkEnv F L) :
    ∀ fuel : Nat,
    (∀ (cache : F → PathStateMap L) (f : F) (ps : PathState) cache2 r,
      walkFunction env fuel cache f ps = some (cache2, r) →
      ∀ g q, ((cache g).Get q).isSome → ((cache2 g).Get q).isSome) ∧
    (∀ (cache : F → PathStateMap L) (l : List (F × PathState)) cache2 rs,
      walkCalls env fuel cache l = some (cache2, rs) →
      ∀ g q, ((cache g).Get q).isSome → ((cache2 g).Get q).isSome) := by
  intro fuel
  induction fuel with
  | zero =>
    constructor
    · intro cache f ps cache2 r h
      rw [walkFunction_zero] at h
      cases h
    · intro cache l cache2 rs h
      cases l with
      | nil =>
        rw [walkCalls_nil] at h
        cases h
        exact fun g q hq => hq
      | cons fq rest =>
        rw [walkCalls_cons, walkFunction_zero] at h
        cases h
  | succ n ih =>
    have hw : ∀ (cache : F → PathStateMap L) (f : F) (ps : PathState) cache2 r,
        walkFunction env (n + 1) cache f ps = some (cache2, r) →
        ∀ g q, ((cache g).Get q).isSome → ((cache2 g).Get q).isSome := by
      intro cache f ps cache2 r h g q hq
      rw [walkFunction_succ] at h
      by_cases hb : env.hasBody f = false
      · rw [if_pos hb] at h
        cases h
        exact hq
      · rw [if_neg hb] at h
        cases hget : (cache f).Get ps with
        | some l =>
          rw [hget] at h
          cases h
          exact hq
        | none =>
          rw [hget] at h
          simp only at h
          cases hcalls : walkCalls env n (updCache cache f ((cache f).Set ps env.emptyLSS))
              (env.calls f ps) with
          | none =>
            rw [hcalls] at h
            cases h
          | some cr =>
            obtain ⟨c2, rs⟩ := cr
            rw [hcalls] at h
            cases h
            have h1 : (((updCache cache f ((cache f).Set ps env.emptyLSS)) g).Get q).isSome :=
              updCache_Get_isSome cache f _ g q
                (fun q2 hq2 => PathStateMap.Get_Set_isSome _ _ _ _ hq2) hq
            have h2 := ih.2 _ _ _ _ hcalls g q h1
            exact updCache_Get_isSome c2 f _ g q
              (fun q2 hq2 => PathStateMap.Get_Set_isSome _ _ _ _ hq2) h2
    refine ⟨hw, ?_⟩
    intro cache l
    induction l generalizing cache with
    | nil =>
      intro cache2 rs h
      rw [walkCalls_nil] at h
      cases h
      exact fun g q hq => hq
    | cons fq rest ihl =>
      intro cache2 rs h g q hq
      rw [walkCalls_cons] at h
      cases hwf : walkFunction env (n + 1) cache fq.1 fq.2 with
      | none =>
        rw [hwf] at h
        cases h
      | some cr =>
        obtain ⟨c2, r⟩ := cr
        rw [hwf] at h
        simp only at h
        cases hwc : walkCalls env (n + 1) c2 rest with
        | none =>
          rw [hwc] at h
          cases h
        | some cr2 =>
          obtain ⟨c3, rs2⟩ := cr2
          rw [hwc] at h
          cases h
          exact ihl c2 _ _ hwc g q (hw cache fq.1 fq.2 c2 r hwf g q hq)

/-- Any fuel above the number of not-yet-memoized entries of a finite
call-closed domain makes the walk return (the memoization placeholder
strictly shrinks the missing set before every descent). -/
theorem walk_isSome {F L : Type} [DecidableEq F] (env : WalkEnv F L)
    (D : List (F × PathState))
    (hclosed : ∀ fp ∈ D, ∀ fq ∈ env.calls fp.1 fp.2, fq ∈ D)
    (hnodup : ∀ fp ∈ D, nodupKeys fp.2.lockSet.stackMap = true) :
    ∀ (fuel : Nat) (cache : F → PathStateMap L) (f : F) (ps : PathState),
      (f, ps) ∈ D → fuel > countMissing cache D →
      (walkFunction env fuel cache f ps).isSome := by
  intro fuel
  induction fuel with
  | zero =>
    intro cache f ps hmem hfuel
    omega
  | succ n ihA =>
    have hmissmono : ∀ (cache cache2 : F → PathStateMap L),
        (∀ g q, ((cache g).Get q).isSome → ((cache2 g).Get q).isSome) →
        countMissing cache2 D ≤ countMissing cache D := by
      intro cache cache2 hmono
      refine filter_length_mono D _ _ ?_
      intro fp hfp hq
      rcases Bool.eq_false_or_eq_true (((cache fp.1).Get fp.2).isNone) with h | h
      · exact h
      · exfalso
        have h1 : (((cache fp.1).Get fp.2)).isSome := by
          cases hc : (cache fp.1).Get fp.2 with
          | none => rw [hc] at h; simp at h
          | some v => simp
        have h2 := hmono fp.1 fp.2 h1
        cases hc : (cache2 fp.1).Get fp.2 with
        | none => rw [hc] at h2; simp at h2
        | some v => rw [hc] at hq; simp at hq
    have hB : ∀ (l : List (F × PathState)) (cache : F → PathStateMap L),
        (∀ fq ∈ l, fq ∈ D) → n > countMissing cache D →
        (walkCalls env n cache l).isSome := by
      intro l
      induction l with
      | nil =>
        intro cache _ _
        rw [walkCalls_nil]
        simp
      | cons fq rest ihl =>
        intro cache hl hfuel
        rw [walkCalls_cons]
        have h1 : (walkFunction env n cache fq.1 fq.2).isSome :=
          ihA cache fq.1 fq.2 (by simpa using hl fq (by simp)) hfuel
        cases hwf : walkFunction env n cache fq.1 fq.2 with
        | none => rw [hwf] at h1; simp at h1
        | some cr =>
          obtain ⟨c2, r⟩ := cr
          simp only
          have hmono := (walk_mono env n).1 cache fq.1 fq.2 c2 r hwf
          have hle : countMissing c2 D ≤ countMissing cache D := hmissmono cache c2 hmono
          have h2 : (walkCalls env n c2 rest).isSome :=
            ihl c2 (fun x hx => hl x (by simp [hx])) (by omega)
          cases hwc : walkCalls env n c2 rest with
          | none => rw [hwc] at h2; simp at h2
          | some cr2 =>
            obtain ⟨c3, rs⟩ := cr2
            simp
    intro cache f ps hmem hfuel
    rw [walkFunction_succ]
    by_cases hb : env.hasBody f = false
    · rw [if_pos hb]
      simp
    · rw [if_neg hb]
      cases hget : (cache f).Get ps with
      | some l => simp
      | none =>
        simp only
        have hstrict : countMissing (updCache cache f ((cache f).Set ps env.emptyLSS)) D <
            countMissing cache D := by
          refine filter_length_strict D _ _ ?_ (f, ps) hmem ?_ ?_
          · intro fp hfp hq
            rcases Bool.eq_false_or_eq_true (((cache fp.1).Get fp.2).isNone) with h | h
            · exact h
            · exfalso
              have h1 : (((cache fp.1).Get fp.2)).isSome := by
                cases hc : (cache fp.1).Get fp.2 with
                | none => rw [hc] at h; simp at h
                | some v => simp
              have h2 : (((updCache cache f ((cache f).Set ps env.emptyLSS) fp.1).Get
                  fp.2)).isSome :=
                updCache_Get_isSome cache f _ fp.1 fp.2
                  (fun q2 hq2 => PathStateMap.Get_Set_isSome _ _ _ _ hq2) h1
              cases hc : (updCache cache f ((cache f).Set ps env.emptyLSS) fp.1).Get fp.2 with
              | none => rw [hc] at h2; simp at h2
              | some v => rw [hc] at hq; simp at hq
          · simp [hget]
          · have hself : ((updCache cache f ((cache f).Set ps env.emptyLSS)) f).Get ps =
                some env.emptyLSS := by
              have : (updCache cache f ((cache f).Set ps env.emptyLSS)) f =
                  (cache f).Set ps env.emptyLSS := by
                simp [updCache]
              rw [this]
              exact PathStateMap.Get_Set_self (cache f) ps env.emptyLSS hget
                (hnodup (f, ps) hmem)
            simp [hself]
        have hcallsome : (walkCalls env n
            (updCache cache f ((cache f).Set ps env.emptyLSS)) (env.calls f ps)).isSome :=
          hB (env.calls f ps) _
            (fun fq hfq => hclosed (f, ps) hmem fq hfq) (by omega)
        cases hwc : walkCalls env n (updCache cache f ((cache f).Set ps env.emptyLSS))
            (env.calls f ps) with
        | none => rw [hwc] at hcallsome; simp at hcallsome
        | some cr =>
          obtain ⟨c2, rs⟩ := cr
          simp

/-- C5: walkFunction memoizes by entry PathState: (a) a call whose entry
state is Equal to one whose result is cached returns the stored
LockSetSet with the caches untouched — the body is not re-walked
(main.go:1287-1290); (b) before walking, an empty LockSetSet placeholder
is stored at ps (main.go:1309), so a recursive call reaching the same
function with an Equal entry state returns the empty set at once,
terminating that path; (c) hence recursion through a call-graph cycle
does not recurse forever: on any finite call-closed domain of (function,
entry state) pairs, any recursion-depth bound above the number of
not-yet-memoized entries lets the walk return. -/
theorem walkFunction_memoization {F L : Type} [DecidableEq F] (env : WalkEnv F L) :
    (∀ (fuel : Nat) (cache : F → PathStateMap L) (f : F) (ps : PathState) (l : L),
      env.hasBody f = true → (cache f).Get ps = some l →
      walkFunction env (fuel + 1) cache f ps = some (cache, l)) ∧
    (∀ (fuel : Nat) (cache : F → PathStateMap L) (f : F) (ps ps2 : PathState),
      env.hasBody f = true → (cache f).Get ps = none → (cache f).Get ps2 = none →
      ps.Equal ps2 = true →
      walkFunction env (fuel + 1) (updCache cache f ((cache f).Set ps env.emptyLSS)) f ps2 =
        some (updCache cache f ((cache f).Set ps env.emptyLSS), env.emptyLSS)) ∧
    (∀ (D : List (F × PathState)),
      (∀ fp ∈ D, ∀ fq ∈ env.calls fp.1 fp.2, fq ∈ D) →
      (∀ fp ∈ D, nodupKeys fp.2.lockSet.stackMap = true) →
      ∀ (fuel : Nat) (cache : F → PathStateMap L) (f : F) (ps : PathState),
        (f, ps) ∈ D → fuel > countMissing cache D →
        (walkFunction env fuel cache f ps).isSome) := by
  refine ⟨?_, ?_, ?_⟩
  · intro fuel cache f ps l hb hget
    rw [walkFunction_succ, if_neg (by simp [hb]), hget]
  · intro fuel cache f ps ps2 hb hget hget2 heq
    have hupd : (updCache cache f ((cache f).Set ps env.emptyLSS)) f =
        (cache f).Set ps env.emptyLSS := by
      simp [updCache]
    have hgot : ((updCache cache f ((cache f).Set ps env.emptyLSS)) f).Get ps2 =
        some env.emptyLSS := by
      rw [hupd]
      exact PathStateMap.Get_Set_of_equal (cache f) ps ps2 env.emptyLSS hget hget2 heq
    rw [walkFunction_succ, if_neg (by simp [hb]), hgot]
  · intro D hclosed hnodup fuel cache f ps hmem hfuel
    exact walk_isSome env D hclosed hnodup fuel cache f ps hmem hfuel

/-- A one-function call graph with a self-loop: walking 0 from entry
c5Ps recursively calls 0 at the same entry state. -/
def c5Env : WalkEnv Nat Nat :=
  ⟨fun _ => true, fun _ => 0, fun _ ps => [(0, ps)], fun _ _ _ => 7, 0⟩

def c5Ps : PathState := ⟨0, ⟨0, ∅, []⟩, ⟨[], []⟩, []⟩

def c5Cache : Nat → PathStateMap Nat := fun _ => ⟨[]⟩

def c5CacheHit : Nat → PathStateMap Nat := fun _ => (⟨[]⟩ : PathStateMap Nat).Set c5Ps 5

theorem walkFunction_memoization_witness :
    (walkFunction c5Env 1 c5CacheHit 0 c5Ps = some (c5CacheHit, 5)) ∧
    (walkFunction c5Env 1 (updCache c5Cache 0 ((c5Cache 0).Set c5Ps c5Env.emptyLSS)) 0 c5Ps =
      some (updCache c5Cache 0 ((c5Cache 0).Set c5Ps c5Env.emptyLSS), c5Env.emptyLSS)) ∧
    ((walkFunction c5Env 2 c5Cache 0 c5Ps).isSome = true) :=
  ⟨(walkFunction_memoization c5Env).1 0 c5CacheHit 0 c5Ps 5 (by decide) (by decide),
   (walkFunction_memoization c5Env).2.1 0 c5Cache 0 c5Ps c5Ps (by decide) (by decide)
     (by decide) (by decide),
   (walkFunction_memoization c5Env).2.2 [(0, c5Ps)] (by decide) (by decide) 2 c5Cache 0 c5Ps
     (by decide) (by decide)⟩

section StackFrameModel

/-- StackFrame (main.go:1020-1023): parent is a *StackFrame (none models
the Go nil, the empty stack), call an ssa.Instruction (abstracted to an
id; Go compares instructions by interface identity). -/
structure SFNode where
  parent : Option Nat
  call : Nat
deriving DecidableEq

/-- The heap of StackFrame allocations plus internedStackFrames
(main.go:1025): store lists allocations in allocation order (a pointer is
an index into it), interned maps StackFrame values to the canonical
address, as Go's map[StackFrame]*StackFrame (first-match assoc list;
the code inserts only at absent keys). -/
structure SFHeap where
  store : List SFNode
  interned : List (SFNode × Nat)
deriving DecidableEq

def lookupInterned (l : List (SFNode × Nat)) (k : SFNode) : Option Nat :=
  match l with
  | [] => none
  | kv :: rest => if kv.1 = k then some kv.2 else lookupInterned rest k

/-- StackFrame.Extend (main.go:1042-1044): allocate &StackFrame{sf, call};
the fresh pointer is the next address. -/
def SFHeap.Extend (h : SFHeap) (sf : Option Nat) (call : Nat) : SFHeap × Nat :=
  (⟨h.store ++ [⟨sf, call⟩], h.interned⟩, h.store.length)

/-- StackFrame.Flatten (main.go:1029-1037): the list of calls, outermost
first (the into buffer is a capacity optimization and is elided). fuel
bounds the parent chase; none models a dangling pointer or exhaustion,
neither reachable from Go (parents are always strictly older
allocations). -/
def SFHeap.Flatten (h : SFHeap) : Nat → Option Nat → Option (List Nat)
  | 0, _ => none
  | _ + 1, none => some []
  | fuel + 1, some a =>
    match h.store[a]? with
    | none => none
    | some nd =>
      match h.Flatten fuel nd.parent with
      | none => none
      | some l => some (l ++ [nd.call])

/-- StackFrame.Intern (main.go:1048-1061), line by line: nil is its own
canonical form; a map hit on the frame's own value returns the mapped
pointer; otherwise the parent is interned, a fresh frame over the
canonical parent is allocated (kept even when the second lookup then
hits, exactly as the Go code wastes that allocation), and the map gains
the new frame only when the second lookup misses. -/
def SFHeap.Intern : Nat → SFHeap → Option Nat → Option (SFHeap × Option Nat)
  | 0, _, _ => none
  | _ + 1, h, none => some (h, none)
  | fuel + 1, h, some a =>
    match h.store[a]? with
    | none => none
    | some nd =>
      match lookupInterned h.interned nd with
      | some r => some (h, some r)
      | none =>
        match SFHeap.Intern fuel h nd.parent with
        | none => none
        | some (h1, cp) =>
          let h2na := h1.Extend cp nd.call
          match lookupInterned h2na.1.interned ⟨cp, nd.call⟩ with
          | some r => some (h2na.1, some r)
          | none =>
            some (⟨h2na.1.store, (⟨cp, nd.call⟩, h2na.2) :: h2na.1.interned⟩,
              some h2na.2)

/-- Allocation discipline: every frame's parent is a strictly older
allocation (Extend only ever links to already-allocated frames). -/
def heapWF (h : SFHeap) : Prop :=
  ∀ (a : Nat) (nd : SFNode), h.store[a]? = some nd → ∀ p, nd.parent = some p → p < a

def heapWFb (h : SFHeap) : Bool :=
  (List.range h.store.length).all (fun (a : Nat) =>
    match h.store[a]? with
    | none => true
    | some nd =>
      match nd.parent with
      | none => true
      | some p => decide (p < a))

/-- A canonical pointer: nil, or an address the interned map has produced. -/
def canonicalPtr (h : SFHeap) (p : Option Nat) : Prop :=
  p = none ∨ ∃ kv ∈ h.interned, some kv.2 = p

/-- internedStackFrames integrity: each entry's address stores exactly the
key value, and the key's parent pointer is itself canonical (entries are
only ever created from nsf = parent.Intern().Extend(call)). -/
def tableWF (h : SFHeap) : Prop :=
  ∀ kv ∈ h.interned, h.store[kv.2]? = some kv.1 ∧ canonicalPtr h kv.1.parent

/-- Go map keys are unique. -/
def keysNodup (h : SFHeap) : Prop := (h.interned.map Prod.fst).Nodup

theorem heapWF_of_b (h : SFHeap) (hb : heapWFb h = true) : heapWF h := by
  unfold heapWF
  intro a nd hget p hp
  have ha : a < h.store.length := by
    by_contra hc
    push_neg at hc
    rw [List.getElem?_eq_none hc] at hget
    cases hget
  have h1 := List.all_eq_true.mp hb a (List.mem_range.mpr ha)
  simp only [hget] at h1
  simp only [hp] at h1
  simpa using h1

theorem lookupInterned_mem (l : List (SFNode × Nat)) (k : SFNode) (v : Nat)
    (h : lookupInterned l k = some v) : (k, v) ∈ l := by
  induction l with
  | nil => cases h
  | cons kv rest ih =>
    by_cases hk : kv.1 = k
    · rw [lookupInterned, if_pos hk] at h
      cases h
      exact List.mem_cons.mpr (Or.inl (by rw [← hk]))
    · rw [lookupInterned, if_neg hk] at h
      exact List.mem_cons_of_mem _ (ih h)

theorem lookupInterned_none_not_mem (l : List (SFNode × Nat)) (k : SFNode)
    (h : lookupInterned l k = none) : ∀ v, (k, v) ∉ l := by
  induction l with
  | nil => simp
  | cons kv rest ih =>
    by_cases hk : kv.1 = k
    · rw [lookupInterned, if_pos hk] at h
      cases h
    · rw [lookupInterned, if_neg hk] at h
      intro v hv
      rcases List.mem_cons.mp hv with h1 | h1
      · exact hk (by rw [← h1])
      · exact ih h v h1

theorem assoc_keys_unique (k : SFNode) :
    ∀ (l : List (SFNode × Nat)), (l.map Prod.fst).Nodup →
    ∀ v1 v2, (k, v1) ∈ l → (k, v2) ∈ l → v1 = v2 := by
  intro l
  induction l with
  | nil =>
    intro _ v1 v2 h1 _
    cases h1
  | cons kv rest ih =>
    intro hnd v1 v2 h1 h2
    rw [List.map_cons, List.nodup_cons] at hnd
    rcases List.mem_cons.mp h1 with e1 | e1 <;> rcases List.mem_cons.mp h2 with e2 | e2
    · have a1 : v1 = kv.2 := congrArg Prod.snd e1
      have a2 : v2 = kv.2 := congrArg Prod.snd e2
      rw [a1, a2]
    · exfalso
      have hk : k = kv.1 := congrArg Prod.fst e1
      exact hnd.1 (hk ▸ List.mem_map_of_mem Prod.fst e2)
    · exfalso
      have hk : k = kv.1 := congrArg Prod.fst e2
      exact hnd.1 (hk ▸ List.mem_map_of_mem Prod.fst e1)
    · exact ih hnd.2 v1 v2 e1 e2

theorem keysNodup_unique (h : SFHeap) (hnd : keysNodup h) (k : SFNode) (v1 v2 : Nat)
    (h1 : (k, v1) ∈ h.interned) (h2 : (k, v2) ∈ h.interned) : v1 = v2 :=
  assoc_keys_unique k h.interned hnd v1 v2 h1 h2

theorem getElem?_append_some (l t : List SFNode) (a : Nat) (nd : SFNode)
    (hg : l[a]? = some nd) : (l ++ t)[a]? = some nd := by
  have ha : a < l.length := by
    by_contra hc
    push_neg at hc
    rw [List.getElem?_eq_none hc] at hg
    cases hg
  rw [List.getElem?_append, if_pos ha]
  exact hg

theorem getElem?_append_length (l : List SFNode) (x : SFNode) :
    (l ++ [x])[l.length]? = some x := by
  induction l with
  | nil => rfl
  | cons y ys ih =>
    simp only [List.cons_append, List.length_cons, List.getElem?_cons_succ]
    exact ih

end StackFrameModel

theorem canonicalPtr_of_mem (h : SFHeap) (kv : SFNode × Nat) (hm : kv ∈ h.interned) :
    canonicalPtr h (some kv.2) :=
  Or.inr ⟨kv, hm, rfl⟩

theorem canonicalPtr_some_spec (h : SFHeap) (a : Nat)
    (hc : canonicalPtr h (some a)) : ∃ kv ∈ h.interned, kv.2 = a := by
  rcases hc with hc | ⟨kv, hm, he⟩
  · cases hc
  · exact ⟨kv, hm, by cases he; rfl⟩

/-- Canonicity only grows as the interned map gains entries. -/
theorem canonicalPtr_mono (h h' : SFHeap) (u : List (SFNode × Nat))
    (hu : h'.interned = u ++ h.interned) (p : Option Nat)
    (hc : canonicalPtr h p) : canonicalPtr h' p := by
  rcases hc with hc | ⟨kv, hm, he⟩
  · exact Or.inl hc
  · exact Or.inr ⟨kv, by rw [hu]; exact List.mem_append_right u hm, he⟩

/-- Flatten only reads the store, and only at already-allocated
addresses: appending allocations preserves every defined result. -/
theorem Flatten_ext (h h' : SFHeap) (t : List SFNode) (ht : h'.store = h.store ++ t) :
    ∀ (fl : Nat) (p : Option Nat) (l : List Nat),
      SFHeap.Flatten h fl p = some l → SFHeap.Flatten h' fl p = some l := by
  intro fl
  induction fl with
  | zero =>
    intro p l hf
    cases hf
  | succ n ih =>
    intro p l hf
    cases p with
    | none => exact hf
    | some a =>
      rw [SFHeap.Flatten] at hf ⊢
      cases hg : h.store[a]? with
      | none =>
        simp only [hg] at hf
        cases hf
      | some nd =>
        simp only [hg] at hf
        have hg' : h'.store[a]? = some nd := by
          rw [ht]
          exact getElem?_append_some _ _ _ _ hg
        simp only [hg']
        cases hrec : SFHeap.Flatten h n nd.parent with
        | none =>
          simp only [hrec] at hf
          cases hf
        | some l0 =>
          simp only [hrec] at hf
          simp only [ih nd.parent l0 hrec]
          exact hf

/-- Flatten's result does not depend on the fuel, only whether it is
defined does. -/
theorem Flatten_irrel (h : SFHeap) :
    ∀ (fl1 : Nat) (fl2 : Nat) (p : Option Nat) (l1 l2 : List Nat),
      SFHeap.Flatten h fl1 p = some l1 → SFHeap.Flatten h fl2 p = some l2 → l1 = l2 := by
  intro fl1
  induction fl1 with
  | zero =>
    intro fl2 p l1 l2 h1 _
    cases h1
  | succ n ih =>
    intro fl2 p l1 l2 h1 h2
    cases p with
    | none =>
      cases fl2 with
      | zero => cases h2
      | succ m =>
        rw [SFHeap.Flatten] at h1 h2
        cases h1
        cases h2
        rfl
    | some a =>
      cases fl2 with
      | zero => cases h2
      | succ m =>
        rw [SFHeap.Flatten] at h1 h2
        cases hg : h.store[a]? with
        | none =>
          simp only [hg] at h1
          cases h1
        | some nd =>
          simp only [hg] at h1 h2
          cases r1 : SFHeap.Flatten h n nd.parent with
          | none =>
            simp only [r1] at h1
            cases h1
          | some k1 =>
            simp only [r1] at h1
            cases r2 : SFHeap.Flatten h m nd.parent with
            | none =>
              simp only [r2] at h2
              cases h2
            | some k2 =>
              simp only [r2] at h2
              cases h1
              cases h2
              rw [ih m nd.parent k1 k2 r1 r2]

theorem getElem?_some_lt (l : List SFNode) (a : Nat) (nd : SFNode)
    (h : l[a]? = some nd) : a < l.length := by
  by_contra hc
  push_neg at hc
  rw [List.getElem?_eq_none hc] at h
  cases h

/-- What one Intern call guarantees: the heap only grows (store appended,
interned map gains entries), well-formedness is preserved, the returned
pointer is canonical, and the canonical frame Flattens to exactly the
input frame's call sequence. -/
theorem Intern_spec :
    ∀ (fuel : Nat) (h : SFHeap) (p : Option Nat) (h' : SFHeap) (r : Option Nat),
      heapWF h → tableWF h → keysNodup h →
      SFHeap.Intern fuel h p = some (h', r) →
      (∃ t, h'.store = h.store ++ t) ∧ (∃ u, h'.interned = u ++ h.interned) ∧
      heapWF h' ∧ tableWF h' ∧ keysNodup h' ∧ canonicalPtr h' r ∧
      (∀ fl l, SFHeap.Flatten h fl p = some l → SFHeap.Flatten h' fl r = some l) := by
  intro fuel
  induction fuel with
  | zero =>
    intro h p h' r _ _ _ hi
    cases hi
  | succ n ih =>
    intro h p h' r hhw htw hnd hi
    cases p with
    | none =>
      rw [SFHeap.Intern] at hi
      cases hi
      exact ⟨⟨[], by simp⟩, ⟨[], by simp⟩, hhw, htw, hnd, Or.inl rfl, fun fl l hf => hf⟩
    | some a =>
      rw [SFHeap.Intern] at hi
      cases hg : h.store[a]? with
      | none =>
        simp only [hg] at hi
        cases hi
      | some nd =>
        simp only [hg] at hi
        cases hlk : lookupInterned h.interned nd with
        | some r0 =>
          simp only [hlk] at hi
          cases hi
          have hmem := lookupInterned_mem _ _ _ hlk
          refine ⟨⟨[], by simp⟩, ⟨[], by simp⟩, hhw, htw, hnd,
            canonicalPtr_of_mem h (nd, r0) hmem, ?_⟩
          intro fl l hf
          cases fl with
          | zero => cases hf
          | succ m =>
            rw [SFHeap.Flatten] at hf ⊢
            simp only [hg] at hf
            have hst : h.store[r0]? = some nd := (htw (nd, r0) hmem).1
            simp only [hst]
            exact hf
        | none =>
          simp only [hlk] at hi
          cases hrec : SFHeap.Intern n h nd.parent with
          | none =>
            simp only [hrec] at hi
            cases hi
          | some pr =>
            obtain ⟨h1, cp⟩ := pr
            simp only [hrec, SFHeap.Extend] at hi
            obtain ⟨⟨t1, ht1⟩, ⟨u1, hu1⟩, hw1, tw1, nd1, hc1, T1⟩ :=
              ih h nd.parent h1 cp hhw htw hnd hrec
            have hcpb : ∀ c, cp = some c → c < h1.store.length := by
              intro c hc
              rw [hc] at hc1
              obtain ⟨kv, hkm, hkv⟩ := canonicalPtr_some_spec h1 c hc1
              have := (tw1 kv hkm).1
              rw [hkv] at this
              exact getElem?_some_lt _ _ _ this
            have hna : (h1.store ++ [(⟨cp, nd.call⟩ : SFNode)])[h1.store.length]? =
                some ⟨cp, nd.call⟩ := getElem?_append_length _ _
            have hwst2 : ∀ (itl : List (SFNode × Nat)),
                heapWF ⟨h1.store ++ [(⟨cp, nd.call⟩ : SFNode)], itl⟩ := by
              intro itl
              intro b m hb q hq
              simp only at hb
              rw [List.getElem?_append] at hb
              by_cases hblt : b < h1.store.length
              · rw [if_pos hblt] at hb
                exact hw1 b m hb q hq
              · rw [if_neg hblt] at hb
                push_neg at hblt
                cases hd : b - h1.store.length with
                | zero =>
                  rw [hd] at hb
                  simp only [List.getElem?_cons_zero] at hb
                  cases hb
                  have hq2 : cp = some q := hq
                  have := hcpb q hq2
                  omega
                | succ k =>
                  rw [hd] at hb
                  simp only [List.getElem?_cons_succ, List.getElem?_nil] at hb
                  cases hb
            have hget2 : ∀ kv ∈ h1.interned,
                (h1.store ++ [(⟨cp, nd.call⟩ : SFNode)])[kv.2]? = some kv.1 := by
              intro kv hkm
              exact getElem?_append_some _ _ _ _ (tw1 kv hkm).1
            cases hlk2 : lookupInterned h1.interned ⟨cp, nd.call⟩ with
            | some r1 =>
              simp only [hlk2] at hi
              cases hi
              have hmem2 := lookupInterned_mem _ _ _ hlk2
              refine ⟨⟨t1 ++ [⟨cp, nd.call⟩], by rw [ht1, List.append_assoc]⟩,
                ⟨u1, hu1⟩, hwst2 h1.interned, ?_, nd1,
                canonicalPtr_of_mem ⟨h1.store ++ [⟨cp, nd.call⟩], h1.interned⟩
                  (⟨cp, nd.call⟩, r1) hmem2, ?_⟩
              · intro kv hkm
                refine ⟨hget2 kv hkm, ?_⟩
                exact canonicalPtr_mono h1 _ [] rfl _ (tw1 kv hkm).2
              · intro fl l hf
                cases fl with
                | zero => cases hf
                | succ m =>
                  rw [SFHeap.Flatten] at hf ⊢
                  simp only [hg] at hf
                  cases hrecf : SFHeap.Flatten h m nd.parent with
                  | none =>
                    simp only [hrecf] at hf
                    cases hf
                  | some l0 =>
                    simp only [hrecf] at hf
                    cases hf
                    have hr1st : (h1.store ++ [(⟨cp, nd.call⟩ : SFNode)])[r1]? =
                        some ⟨cp, nd.call⟩ := hget2 _ hmem2
                    simp only [hr1st]
                    have hf1 : SFHeap.Flatten h1 m cp = some l0 := T1 m l0 hrecf
                    have hf2 : SFHeap.Flatten
                        ⟨h1.store ++ [(⟨cp, nd.call⟩ : SFNode)], h1.interned⟩ m cp =
                        some l0 :=
                      Flatten_ext h1 _ [⟨cp, nd.call⟩] rfl m cp l0 hf1
                    simp only [hf2]
            | none =>
              simp only [hlk2] at hi
              cases hi
              have hnotmem : (⟨cp, nd.call⟩ : SFNode) ∉ h1.interned.map Prod.fst := by
                intro hmm
                obtain ⟨kv, hkm, hke⟩ := List.mem_map.mp hmm
                have : ((⟨cp, nd.call⟩ : SFNode), kv.2) ∈ h1.interned := by
                  have hkv : kv = (⟨cp, nd.call⟩, kv.2) := by
                    rw [← hke]
                  rw [← hkv]
                  exact hkm
                exact lookupInterned_none_not_mem _ _ hlk2 kv.2 this
              refine ⟨⟨t1 ++ [⟨cp, nd.call⟩], by rw [ht1, List.append_assoc]⟩,
                ⟨(⟨cp, nd.call⟩, h1.store.length) :: u1, by rw [hu1]; rfl⟩,
                hwst2 _, ?_, ?_, ?_, ?_⟩
              · intro kv hkm
                rcases List.mem_cons.mp hkm with he | hkm2
                · subst he
                  refine ⟨hna, ?_⟩
                  exact canonicalPtr_mono h1 _ [(⟨cp, nd.call⟩, h1.store.length)] rfl cp hc1
                · refine ⟨hget2 kv hkm2, ?_⟩
                  exact canonicalPtr_mono h1 _ [(⟨cp, nd.call⟩, h1.store.length)] rfl _
                    (tw1 kv hkm2).2
              · unfold keysNodup
                simp only [List.map_cons]
                exact List.nodup_cons.mpr ⟨hnotmem, nd1⟩
              · exact canonicalPtr_of_mem _ (⟨cp, nd.call⟩, h1.store.length)
                  (List.mem_cons_self _ _)
              · intro fl l hf
                cases fl with
                | zero => cases hf
                | succ m =>
                  rw [SFHeap.Flatten] at hf ⊢
                  simp only [hg] at hf
                  cases hrecf : SFHeap.Flatten h m nd.parent with
                  | none =>
                    simp only [hrecf] at hf
                    cases hf
                  | some l0 =>
                    simp only [hrecf] at hf
                    cases hf
                    simp only [hna]
                    have hf1 : SFHeap.Flatten h1 m cp = some l0 := T1 m l0 hrecf
                    have hf2 : SFHeap.Flatten
                        ⟨h1.store ++ [(⟨cp, nd.call⟩ : SFNode)],
                          (⟨cp, nd.call⟩, h1.store.length) :: h1.interned⟩ m cp =
                        some l0 :=
                      Flatten_ext h1 _ [⟨cp, nd.call⟩] rfl m cp l0 hf1
                    simp only [hf2]

theorem SFNode.ext2 (x y : SFNode) (hp : x.parent = y.parent) (hc : x.call = y.call) :
    x = y := by
  cases x
  cases y
  simp_all

/-- Canonical frames with identical Flatten sequences are the same
pointer: the interned map admits one address per call sequence. -/
theorem canonical_flatten_inj (h : SFHeap) (htw : tableWF h) (hnd : keysNodup h) :
    ∀ (fl1 fl2 : Nat) (r1 r2 : Option Nat) (l : List Nat),
      canonicalPtr h r1 → canonicalPtr h r2 →
      SFHeap.Flatten h fl1 r1 = some l → SFHeap.Flatten h fl2 r2 = some l → r1 = r2 := by
  intro fl1
  induction fl1 with
  | zero =>
    intro fl2 r1 r2 l _ _ h1 _
    cases h1
  | succ n ih =>
    intro fl2 r1 r2 l hc1 hc2 h1 h2
    cases r1 with
    | none =>
      rw [SFHeap.Flatten] at h1
      cases h1
      cases r2 with
      | none => rfl
      | some a2 =>
        cases fl2 with
        | zero => cases h2
        | succ m =>
          rw [SFHeap.Flatten] at h2
          cases hg2 : h.store[a2]? with
          | none =>
            simp only [hg2] at h2
            cases h2
          | some nd2 =>
            simp only [hg2] at h2
            cases hr2 : SFHeap.Flatten h m nd2.parent with
            | none =>
              simp only [hr2] at h2
              cases h2
            | some l2 =>
              simp only [hr2] at h2
              simp at h2
    | some a1 =>
      cases fl2 with
      | zero => cases h2
      | succ m =>
        rw [SFHeap.Flatten] at h1
        obtain ⟨kv1, hm1, hv1⟩ := canonicalPtr_some_spec h a1 hc1
        have hst1 : h.store[a1]? = some kv1.1 := by
          have := (htw kv1 hm1).1
          rw [hv1] at this
          exact this
        simp only [hst1] at h1
        cases hr1 : SFHeap.Flatten h n kv1.1.parent with
        | none =>
          simp only [hr1] at h1
          cases h1
        | some k1 =>
          simp only [hr1] at h1
          cases r2 with
          | none =>
            rw [SFHeap.Flatten] at h2
            cases h2
            simp at h1
          | some a2 =>
            rw [SFHeap.Flatten] at h2
            obtain ⟨kv2, hm2, hv2⟩ := canonicalPtr_some_spec h a2 hc2
            have hst2 : h.store[a2]? = some kv2.1 := by
              have := (htw kv2 hm2).1
              rw [hv2] at this
              exact this
            simp only [hst2] at h2
            cases hr2 : SFHeap.Flatten h m kv2.1.parent with
            | none =>
              simp only [hr2] at h2
              cases h2
            | some k2 =>
              simp only [hr2] at h2
              injection h1 with e1
              injection h2 with e2
              rw [← e2] at e1
              have hlen : k1.length = k2.length := by
                have := congrArg List.length e1
                simp at this
                omega
              obtain ⟨ek, ec⟩ := List.append_inj e1 hlen
              have ecall : kv1.1.call = kv2.1.call := by
                simpa using ec
              have hr2k : SFHeap.Flatten h m kv2.1.parent = some k1 := by
                rw [ek]
                exact hr2
              have hpar : kv1.1.parent = kv2.1.parent :=
                ih m kv1.1.parent kv2.1.parent k1 (htw kv1 hm1).2 (htw kv2 hm2).2 hr1 hr2k
              have hnode : kv1.1 = kv2.1 := SFNode.ext2 _ _ hpar ecall
              have e1m : (kv1.1, a1) ∈ h.interned := by
                have hkv : kv1 = (kv1.1, a1) := by
                  rw [← hv1]
                rw [← hkv]
                exact hm1
              have e2m : (kv1.1, a2) ∈ h.interned := by
                have hkv : kv2 = (kv1.1, a2) := by
                  rw [hnode, ← hv2]
                rw [← hkv]
                exact hm2
              rw [keysNodup_unique h hnd kv1.1 a1 a2 e1m e2m]

/-- C8: StackFrame interning is canonical: for two frames a and b
(interned in sequence against a well-formed heap, as the Go program
interleaves them), a.Intern() and b.Intern() are pointer-equal iff a and
b Flatten to the same sequence of call sites. -/
theorem stackFrame_intern_iff_flatten
    (h h1 h2 : SFHeap) (pa pb ra rb : Option Nat) (fa fb ga gb : Nat)
    (la lb : List Nat)
    (hhw : heapWF h) (htw : tableWF h) (hnd : keysNodup h)
    (hia : SFHeap.Intern fa h pa = some (h1, ra))
    (hib : SFHeap.Intern fb h1 pb = some (h2, rb))
    (hfa : SFHeap.Flatten h ga pa = some la)
    (hfb : SFHeap.Flatten h gb pb = some lb) :
    ra = rb ↔ la = lb := by
  obtain ⟨⟨t1, ht1⟩, ⟨u1, hu1⟩, hw1, tw1, nd1, hc1, T1⟩ :=
    Intern_spec fa h pa h1 ra hhw htw hnd hia
  obtain ⟨⟨t2, ht2⟩, ⟨u2, hu2⟩, hw2, tw2, nd2, hc2, T2⟩ :=
    Intern_spec fb h1 pb h2 rb hw1 tw1 nd1 hib
  have hfa1 : SFHeap.Flatten h1 ga ra = some la := T1 ga la hfa
  have hfa2 : SFHeap.Flatten h2 ga ra = some la := Flatten_ext h1 h2 t2 ht2 ga ra la hfa1
  have hfb1 : SFHeap.Flatten h1 gb pb = some lb := Flatten_ext h h1 t1 ht1 gb pb lb hfb
  have hfb2 : SFHeap.Flatten h2 gb rb = some lb := T2 gb lb hfb1
  have hc1m : canonicalPtr h2 ra := canonicalPtr_mono h1 h2 u2 hu2 ra hc1
  constructor
  · intro he
    rw [he] at hfa2
    exact Flatten_irrel h2 ga gb rb la lb hfa2 hfb2
  · intro he
    rw [← he] at hfb2
    exact canonical_flatten_inj h2 tw2 nd2 ga gb ra rb la hc1m hc2 hfa2 hfb2

/-- Two separately allocated frames with the same (nil parent, call 5)
content; the interner maps both to the one canonical address 2. -/
def c8H : SFHeap := ⟨[⟨none, 5⟩, ⟨none, 5⟩], []⟩

def c8H1 : SFHeap := ⟨[⟨none, 5⟩, ⟨none, 5⟩, ⟨none, 5⟩], [(⟨none, 5⟩, 2)]⟩

theorem stackFrame_intern_iff_flatten_witness :
    heapWF c8H ∧ tableWF c8H ∧ keysNodup c8H ∧
    SFHeap.Intern 3 c8H (some 0) = some (c8H1, some 2) ∧
    SFHeap.Intern 3 c8H1 (some 1) = some (c8H1, some 2) ∧
    SFHeap.Flatten c8H 2 (some 0) = some [5] ∧
    SFHeap.Flatten c8H 2 (some 1) = some [5] ∧
    ((some 2 : Option Nat) = some 2 ↔ ([5] : List Nat) = [5]) :=
  ⟨heapWF_of_b c8H (by decide), by simp [tableWF, c8H], by simp [keysNodup, c8H],
   by decide, by decide, by decide, by decide,
   stackFrame_intern_iff_flatten c8H c8H1 c8H1 (some 0) (some 1) (some 2) (some 2)
     3 3 2 2 [5] [5] (heapWF_of_b c8H (by decide)) (by simp [tableWF, c8H])
     (by simp [keysNodup, c8H]) (by decide) (by decide) (by decide) (by decide)⟩
